import Mathlib

/-!
# Spring-block earthquake simulation: the physics core of `main.cc`

A shallow embedding of the simulation core of `main.cc` (the block chain, the force
model, the three integrators, the substep loop, the energy accumulator with its two
histories, and the block selection) together with theorems about it.

Modelling conventions.

* `float` and `long double` values are exact rationals (`ℚ`): every arithmetic
  expression of the source is evaluated without rounding, a decimal constant such as
  `1e-5` denotes that decimal fraction, and `int` expressions that feed them are
  evaluated in `ℤ` without overflow.  `N_BLOCKS` is a natural number.
* Where the rounding of a `float` decides a statement, the `float` declarations are read
  as binary32: `to_float` is the value a `float` holds after an assignment, and
  `update_leapfrog_float` is the `LEAPFROG` branch with the float field `e`, the float
  product `v_e*dt` and the float parameters of `sign` and `mod` rounded by it
  (`long double` stays exact).
* The blocks live in a heap, a `List block` addressed by position; a `block*` is an
  `Option Nat` (`none` is `nullptr`).  `new block` allocates at the end of the heap.
* The functions that take a `block&` (`compute_accel`, `compute_vel`, `update_block`)
  take the block together with the two blocks its `prev` and `next` pointers refer to
  (`none` when the pointer is null); `load` reads them from the heap, and reading through
  a pointer that refers to no block gives `none` for the whole step.
* The `const` parameters of the source are the fields of `Params`; `config` holds the
  values written in the source.
* The random engine is a sequence of integer draws in `[0, random_steps]`, one per block,
  the range of both `uniform` and `binomial`; the unassigned field `v_prev` of a fresh
  block holds an arbitrary value.
* The substep loop follows `next` with a fuel equal to the heap size and returns `none`
  when the walk does not end; for the chains the program builds (`linked`) it is shown to
  end.
-/

namespace EarthquakeSim

/-! ## Data model -/

/-- Integration scheme (`enum I_Method`). -/
inductive I_Method where
  | EULER
  | RUNGEKUTTA
  | LEAPFROG
deriving DecidableEq, Repr

/-- Friction distribution (`enum P_Distribution`). -/
inductive P_Distribution where
  | ZERO
  | UNIFORM
  | BINOMIAL
deriving DecidableEq, Repr

/-- Tracked energy series (`enum Plot`). -/
inductive Plot where
  | NO_PLOT
  | KINETIC
  | POTENTIAL
  | ALL
deriving DecidableEq, Repr

/-- One node of the chain (`struct block`); `prev` and `next` are heap addresses. -/
structure block where
  index : Int
  x : ℚ
  v : ℚ
  v_prev : ℚ
  a : ℚ
  e : ℚ
  k_p : ℚ
  k_c : ℚ
  friction : ℚ
  prev : Option Nat
  next : Option Nat
deriving DecidableEq, Repr

/-- The constants of the `// Parameters` section of the source. -/
structure Params where
  k_p : ℚ
  k_c : ℚ
  friction_d : ℚ
  v_e : ℚ
  v_epsilon : ℚ
  dt : ℚ
  N_BLOCKS : Nat
  integrate : I_Method
  prob : P_Distribution
  plot : Plot
deriving DecidableEq, Repr

/-- The parameter values written in the source. -/
def config : Params :=
  { k_p := 1, k_c := 2 / 5, friction_d := 10, v_e := 1, v_epsilon := 1 / 1000,
    dt := 1 / 100000, N_BLOCKS := 10, integrate := I_Method.LEAPFROG,
    prob := P_Distribution.BINOMIAL, plot := Plot.ALL }

/-- Width of a block body (`const int block_width = 3`). -/
def block_width : Int := 3

/-- Number of steps of the friction distributions (`const int random_steps = 20`). -/
def random_steps : Nat := 20

/-! ## Scalar helpers -/

/-- Source `max`: the first argument when it is at least the second. -/
def max (a b : ℚ) : ℚ :=
  if a ≥ b then a else b

/-- Source `mod`: the absolute value. -/
def mod (a : ℚ) : ℚ :=
  if a < 0 then -a else a

/-- Source `sign`: `-1` below zero and `1` otherwise (also at zero). -/
def sign (a : ℚ) : Int :=
  if a < 0 then -1 else 1

/-! ## Force model and integrators -/

/-- Source `compute_accel`; `prv` and `nxt` are the blocks `b.prev` and `b.next` point to. -/
def compute_accel (p : Params) (b : block) (prv nxt : Option block) : ℚ :=
  let a : ℚ := 0
  let a : ℚ :=
    match nxt with
    | some n => b.k_c * (n.x - b.x - block_width)
    | none => a
  let a : ℚ :=
    match prv with
    | some q => q.k_c * (q.x - b.x - block_width)
    | none => a
  let k_e_x : ℚ := b.k_p * (b.e - b.x)
  if mod b.v ≤ p.v_epsilon then
    max (a + k_e_x - sign b.v * b.friction) 0
  else
    a + k_e_x - sign b.v * p.friction_d

/-- Source `compute_vel`: the Runge-Kutta velocity, evaluated on a scratch copy `tmp`. -/
def compute_vel (p : Params) (dt : ℚ) (b : block) (prv nxt : Option block) : ℚ :=
  let tmp : block := b
  let k_1 : ℚ := b.a
  let half_dt : ℚ := dt / 2
  let v_1 : ℚ := b.v + k_1 * half_dt
  let tmp : block := { tmp with x := b.x + v_1 * half_dt }
  let tmp : block := { tmp with v := v_1 }
  let tmp : block := { tmp with e := b.e + p.v_e * half_dt }
  let k_2 : ℚ := compute_accel p tmp prv nxt
  let v_2 : ℚ := b.v + k_2 * half_dt
  let tmp : block := { tmp with x := b.x + v_2 * half_dt }
  let tmp : block := { tmp with v := v_2 }
  let k_3 : ℚ := compute_accel p tmp prv nxt
  let tmp : block := { tmp with e := b.e + p.v_e * dt }
  let k_4 : ℚ := compute_accel p tmp prv nxt
  b.v + (k_1 + 2 * k_2 + 2 * k_3 + k_4) * dt / 6

/-- The `LEAPFROG` branch of `update_block`, one assignment after the other. -/
def update_leapfrog (p : Params) (dt : ℚ) (b : block) (prv nxt : Option block) : block :=
  let b : block := { b with a := b.k_p * (b.e - b.x) - sign b.v * p.friction_d }
  let b : block :=
    match nxt with
    | some n => { b with a := b.a + b.k_c * (n.x - b.x - block_width) }
    | none => b
  let b : block :=
    match prv with
    | some q => { b with a := b.a - q.k_c * (b.x - q.x - block_width) }
    | none => b
  let b : block := { b with v_prev := b.v }
  let b : block := { b with v := b.v_prev + dt * b.a }
  let b : block :=
    if b.v * b.v_prev < 0 ∨ mod b.v < p.v_epsilon then
      if mod b.a < b.friction then { b with a := 0, v := 0 } else b
    else b
  let b : block := { b with x := b.x + dt * b.v }
  { b with e := b.e + p.v_e * dt }

/-- The `RUNGEKUTTA` branch of `update_block`. -/
def update_rungekutta (p : Params) (dt : ℚ) (b : block) (prv nxt : Option block) : block :=
  let b : block := { b with a := compute_accel p b prv nxt }
  let b : block := { b with v := compute_vel p dt b prv nxt }
  let b : block := { b with x := b.x + b.v * dt }
  { b with e := b.e + p.v_e * dt }

/-- The `EULER` branch of `update_block` (it uses the global `k_p` and tests `b.v` unsigned). -/
def update_euler (p : Params) (dt : ℚ) (b : block) : block :=
  let k_e_x : ℚ := p.k_p * (b.e - b.x)
  let b : block :=
    if b.v ≤ p.v_epsilon then
      { b with a := b.a + max (k_e_x - sign b.v * b.friction) 0 }
    else
      { b with a := b.a + (k_e_x - sign b.v * p.friction_d) }
  let b : block := { b with v := b.v + b.a * dt }
  let b : block := { b with x := b.x + b.v * dt }
  { b with e := b.e + p.v_e * dt }

/-- Source `update_block`: one step of the configured integrator on block `b`. -/
def update_block (p : Params) (dt : ℚ) (b : block) (prv nxt : Option block) : block :=
  match p.integrate with
  | I_Method.LEAPFROG => update_leapfrog p dt b prv nxt
  | I_Method.RUNGEKUTTA => update_rungekutta p dt b prv nxt
  | I_Method.EULER => update_euler p dt b

/-- The neighbour-spring term `compute_accel` adds to the driver term: the second assignment
(left neighbour) overwrites the first (right neighbour). -/
def neighbour_term (b : block) (prv nxt : Option block) : ℚ :=
  match prv with
  | some q => q.k_c * (q.x - b.x - block_width)
  | none =>
    match nxt with
    | some n => b.k_c * (n.x - b.x - block_width)
    | none => 0

/-! ## The float declarations read as binary32 -/

/-- The simulation globals: the heap of blocks, `startBlock`, `selected`, `max_x`,
`paused`, `max_rec` and the two histories (newest sample first, `[]` is `nullptr`). -/
structure Sim where
  heap : List block
  startBlock : Option Nat
  selected : Option Nat
  max_x : ℚ
  paused : Bool
  max_rec : ℚ
  kineticHist : List ℚ
  potentialHist : List ℚ
deriving DecidableEq, Repr

/-- The globals before `main` runs: null pointers, the initialised scalars. -/
def initial_sim : Sim :=
  { heap := [], startBlock := none, selected := none, max_x := 0, paused := false,
    max_rec := 100, kineticHist := [], potentialHist := [] }

/-- Source `clear_histogram`: the old nodes are released and one node with `rec = 0` is left. -/
def clear_histogram (_start : List ℚ) : List ℚ :=
  [0]

/-- The friction statement of `compute_starting_blocks`: `friction *= 1 + U/(float)random_steps`
under `UNIFORM` and `BINOMIAL`, nothing under `ZERO`; `U` is the integer drawn. -/
def scale_friction (p : Params) (U : Nat) (friction : ℚ) : ℚ :=
  match p.prob with
  | P_Distribution.UNIFORM => friction * (1 + (U : ℚ) / (random_steps : ℚ))
  | P_Distribution.BINOMIAL => friction * (1 + (U : ℚ) / (random_steps : ℚ))
  | P_Distribution.ZERO => friction

/-- The head block as `compute_starting_blocks` fills it; `v_prev` is not assigned by the
source and keeps the indeterminate content `w` of the fresh allocation. -/
def start_block (p : Params) (U : Nat) (w : ℚ) : block :=
  { index := 1, x := 0, v := 0, a := 0, v_prev := w,
    e := ((2 * block_width : Int) : ℚ), k_c := p.k_c, k_p := p.k_p,
    friction := scale_friction p U p.friction_d, prev := none, next := none }

/-- The block `b` allocated by iteration `i` of the loop of `compute_starting_blocks`,
with `b->prev = a`. -/
def loop_block (p : Params) (U : Nat) (w : ℚ) (i : Nat) (a : Nat) : block :=
  { index := (i : Int) + 1, x := ((3 * block_width * (i : Int) : Int) : ℚ), v := 0, a := 0,
    v_prev := w, e := ((block_width * (3 * (i : Int) + 2) : Int) : ℚ), k_c := p.k_c,
    k_p := p.k_p, friction := scale_friction p U p.friction_d, prev := some a, next := none }

/-- Write through a block pointer: `q->next = r`. -/
def set_next (h : List block) (q : Nat) (r : Option Nat) : List block :=
  match h[q]? with
  | some b => h.set q { b with next := r }
  | none => h

/-- Iteration `i` of the loop of `compute_starting_blocks` on the heap `h` and the pointer
`a`: allocate `b`, fill it, `a = a->next = b`. -/
def starting_step (p : Params) (draw : Nat → Fin (random_steps + 1)) (uninit : Nat → ℚ)
    (i : Nat) (st : List block × Nat) : List block × Nat :=
  let b : Nat := st.1.length
  let h : List block := st.1 ++ [loop_block p (draw i).val (uninit i) i st.2]
  (set_next h st.2 (some b), b)

/-- The heap and the pointer `a` after `m` iterations (`i = 1 .. m`) of the loop of
`compute_starting_blocks`. -/
def starting_loop (p : Params) (draw : Nat → Fin (random_steps + 1)) (uninit : Nat → ℚ) :
    Nat → List block × Nat
  | 0 => ([start_block p (draw 0).val (uninit 0)], 0)
  | m + 1 => starting_step p draw uninit (m + 1) (starting_loop p draw uninit m)

/-- Source `compute_starting_blocks`: the histories are cleared, the old chain is released
and a chain of `N_BLOCKS` blocks is built; `draw k` is the integer the random engine gives
for the block at address `k`, `uninit k` the content of its unassigned `v_prev`. -/
def compute_starting_blocks (p : Params) (draw : Nat → Fin (random_steps + 1))
    (uninit : Nat → ℚ) (s : Sim) : Sim :=
  let kineticHist : List ℚ :=
    if p.plot = Plot.KINETIC ∨ p.plot = Plot.ALL then clear_histogram s.kineticHist
    else s.kineticHist
  let potentialHist : List ℚ :=
    if p.plot = Plot.POTENTIAL ∨ p.plot = Plot.ALL then clear_histogram s.potentialHist
    else s.potentialHist
  let st : List block × Nat := starting_loop p draw uninit (p.N_BLOCKS - 1)
  let max_x : ℚ :=
    match st.1[st.2]? with
    | some a => a.x
    | none => s.max_x
  { s with heap := st.1, startBlock := some 0, max_x := max_x, selected := none,
           kineticHist := kineticHist, potentialHist := potentialHist }

/-- Read through a block pointer: `some none` for `nullptr`, the block for a valid
address, `none` when the address refers to no block. -/
def load (h : List block) : Option Nat → Option (Option block)
  | none => some none
  | some q =>
    match h[q]? with
    | some b => some (some b)
    | none => none

/-- The statement `update_block(dt, *b)` for the block at address `q` of the heap. -/
def update_at (p : Params) (dt : ℚ) (h : List block) (q : Nat) : Option (List block) :=
  match h[q]? with
  | none => none
  | some b =>
    match load h b.prev, load h b.next with
    | some prv, some nxt => some (h.set q (update_block p dt b prv nxt))
    | _, _ => none

/-- The inner `while (b != nullptr)` loop of the substep: fold `b->x` into `max_x`, update
the block, follow `next`.  The fuel bounds the number of blocks visited; `none` is a walk
that does not end within the fuel or reads through an invalid pointer. -/
def chain_loop (p : Params) : Nat → Option Nat → List block × ℚ → Option (List block × ℚ)
  | _, none, st => some st
  | 0, some _, _ => none
  | fuel + 1, some q, st =>
    match st.1[q]? with
    | none => none
    | some b =>
      let max_x : ℚ := if b.x > st.2 then b.x else st.2
      match update_at p p.dt st.1 q with
      | none => none
      | some h =>
        match h[q]? with
        | none => none
        | some b1 => chain_loop p fuel b1.next (h, max_x)

/-- One substep: the body of `for (int i = 0; i < iter; ++i)`.  A walk along `next` that
meets no block twice visits at most as many blocks as the heap holds. -/
def substep (p : Params) (s : Sim) : Option Sim :=
  match chain_loop p s.heap.length s.startBlock (s.heap, s.max_x) with
  | some st => some { s with heap := st.1, max_x := st.2 }
  | none => none

/-- The first `n` iterations of the substep loop. -/
def substeps (p : Params) : Nat → Sim → Option Sim
  | 0, s => some s
  | n + 1, s =>
    match substep p s with
    | some s1 => substeps p n s1
    | none => none

/-- The conversion `int iter = GetFrameTime()/dt`: the quotient truncated towards zero. -/
def iter_count (p : Params) (frameTime : ℚ) : Int :=
  let q : ℚ := frameTime / p.dt
  if 0 ≤ q then ⌊q⌋ else ⌈q⌉

/-- The advance of `UpdateDrawFrame`: nothing when paused, else `iter` substeps. -/
def advance (p : Params) (frameTime : ℚ) (s : Sim) : Option Sim :=
  if s.paused then some s
  else substeps p (iter_count p frameTime).toNat s

/-- The blocks met from pointer `q` along `next` until `nullptr`, as heap addresses. -/
def chain_from (h : List block) : Nat → Option Nat → Option (List Nat)
  | _, none => some []
  | 0, some _ => none
  | fuel + 1, some q =>
    match h[q]? with
    | none => none
    | some b =>
      match chain_from h fuel b.next with
      | some l => some (q :: l)
      | none => none

/-- The chain of a simulation state: the addresses met from `startBlock` along `next`. -/
def chain (s : Sim) : Option (List Nat) :=
  chain_from s.heap s.heap.length s.startBlock

/-- A heap whose blocks are linked in address order: block `i` points back to `i - 1`
and forward to `i + 1`, with `nullptr` at both ends. -/
def linked (h : List block) : Prop :=
  ∀ i b, h[i]? = some b →
    b.prev = (if i = 0 then none else some (i - 1)) ∧
    b.next = (if i + 1 < h.length then some (i + 1) else none)

/-- A state whose heap is linked and whose `startBlock` is null or a block of the heap. -/
def chain_ok (s : Sim) : Prop :=
  linked s.heap ∧ ∀ q, s.startBlock = some q → q < s.heap.length

/-! ## Positional reading of the chain -/

/-- The block at address `i` of the chain built with `m` loop iterations: `start_block` or
`loop_block` as filled, with `next` as the following iteration leaves it. -/
def built_block (p : Params) (draw : Nat → Fin (random_steps + 1)) (uninit : Nat → ℚ)
    (m i : Nat) : block :=
  { (if i = 0 then start_block p (draw 0).val (uninit 0)
     else loop_block p (draw i).val (uninit i) i (i - 1)) with
    next := if i < m then some (i + 1) else none }

/-- The block before address `i` in a linked heap (`none` at the head). -/
def left_of (h : List block) (i : Nat) : Option block :=
  if i = 0 then none else h[i - 1]?

/-- The block after address `i` in a linked heap (`none` at the tail). -/
def right_of (h : List block) (i : Nat) : Option block :=
  h[i + 1]?

/-- One pass of the body of the inner loop on the block at address `i`. -/
def visit (p : Params) (i : Nat) (st : List block × ℚ) : List block × ℚ :=
  match st.1[i]? with
  | none => st
  | some b =>
    (st.1.set i (update_block p p.dt b (left_of st.1 i) (right_of st.1 i)),
     if b.x > st.2 then b.x else st.2)

/-- The inner loop on the `k` blocks at addresses `i, i + 1, ..`, in address order. -/
def sweep (p : Params) : Nat → Nat → List block × ℚ → List block × ℚ
  | 0, _, st => st
  | k + 1, i, st => sweep p k (i + 1) (visit p i st)

/-- A sequence of advance calls, one per frame time of the list. -/
def advances (p : Params) : List ℚ → Sim → Option Sim
  | [], s => some s
  | t :: ts, s =>
    match advance p t s with
    | some s1 => advances p ts s1
    | none => none

/-! ## Closed forms used in the statements -/

/-- The acceleration the `LEAPFROG` branch computes before the stick test: driver spring,
dynamic friction against `sign(v)`, and both neighbour springs. -/
def leapfrog_accel (p : Params) (b : block) (prv nxt : Option block) : ℚ :=
  b.k_p * (b.e - b.x) - sign b.v * p.friction_d
    + (match nxt with
       | some n => b.k_c * (n.x - b.x - block_width)
       | none => 0)
    - (match prv with
       | some q => q.k_c * (b.x - q.x - block_width)
       | none => 0)

/-- The sum of the driver-spring force and the two neighbour-spring forces on a block, as
the `LEAPFROG` branch adds them. -/
def elastic_force (b : block) (prv nxt : Option block) : ℚ :=
  b.k_p * (b.e - b.x)
    + (match nxt with
       | some n => b.k_c * (n.x - b.x - block_width)
       | none => 0)
    - (match prv with
       | some q => q.k_c * (b.x - q.x - block_width)
       | none => 0)

/-- The block a `LEAPFROG` update leaves when the stick test holds: `a = v = 0`, the old
velocity in `v_prev`, `x` kept, the anchor advanced. -/
def stuck_block (p : Params) (dt : ℚ) (b : block) : block :=
  { b with v_prev := b.v, a := 0, v := 0, x := b.x, e := b.e + p.v_e * dt }

/-- The stick test of the `LEAPFROG` branch for acceleration `a` and new velocity `v`. -/
def leapfrog_sticks (p : Params) (b : block) (a v : ℚ) : Prop :=
  (v * b.v < 0 ∨ |v| < p.v_epsilon) ∧ |a| < b.friction

instance (p : Params) (b : block) (a v : ℚ) : Decidable (leapfrog_sticks p b a v) := by
  unfold leapfrog_sticks
  infer_instance

/-- The numeric constants of the source that enter the `LEAPFROG` stick test (the driver
velocity, the block count and the distribution are left free). -/
def source_constants (p : Params) : Prop :=
  p.k_p = 1 ∧ p.k_c = 2 / 5 ∧ p.friction_d = 10 ∧ p.v_epsilon = 1 / 1000 ∧
  p.dt = 1 / 100000 ∧ p.integrate = I_Method.LEAPFROG

/-- A linked heap in which every block rests where `compute_starting_blocks` puts it: block
`i` at `x = 3*block_width*i` with anchor `e = block_width*(3*i + 2)`, `v = a = 0`, the
configured spring constants and a static friction of at least `friction_d`. -/
def rest_layout (p : Params) (h : List block) : Prop :=
  linked h ∧ ∀ (i : Nat) (b : block), h[i]? = some b →
    b.x = 3 * (block_width : ℚ) * (i : ℚ) ∧ b.e = (block_width : ℚ) * (3 * (i : ℚ) + 2) ∧
    b.v = 0 ∧ b.a = 0 ∧ b.k_p = p.k_p ∧ b.k_c = p.k_c ∧ p.friction_d ≤ b.friction

/-- A state whose chain starts at address `0`, rests in the layout of construction, and
whose `max_x` is at least every block position. -/
def rest_sim (p : Params) (s : Sim) : Prop :=
  rest_layout p s.heap ∧ s.startBlock = some 0 ∧ 0 < s.heap.length ∧
  ∀ (j : Nat) (b : block), s.heap[j]? = some b → b.x ≤ s.max_x

/-- The block at address `i` after `k` substeps on the freshly built chain. -/
def block_after (p : Params) (draw : Nat → Fin (random_steps + 1)) (uninit : Nat → ℚ)
    (k i : Nat) : Option block :=
  match substeps p k (compute_starting_blocks p draw uninit initial_sim) with
  | some s => s.heap[i]?
  | none => none

/-- The source constants with two blocks and the anchor drift disabled (`v_e = 0`). -/
def config_two_still : Params :=
  { config with N_BLOCKS := 2, v_e := 0 }

/-- The integer an enumerator of `I_Method` stands for, as a C++ condition reads it. -/
def enum_value : I_Method → Int
  | I_Method.EULER => 0
  | I_Method.RUNGEKUTTA => 1
  | I_Method.LEAPFROG => 2

/-- What the kinetic loop adds to `kineticHist->rec` for block `b`.  The source tests
`if (LEAPFROG)`, the enumerator itself, not `integrate == LEAPFROG`. -/
def kinetic_term (b : block) : ℚ :=
  if enum_value I_Method.LEAPFROG ≠ 0 then
    let v : ℚ := (b.v + b.v_prev) / 2
    v / 2
  else
    b.v * b.v / 2

/-- What the potential loop adds to `potentialHist->rec` for block `b`. -/
def potential_term (b : block) : ℚ :=
  let x : ℚ := b.e - b.x
  b.k_p * x * x / 2

/-- The loop `while (b != nullptr) { rec += term; b = b->next; }` of the energy
accumulator, from pointer `q` with `rec = r`; the fuel bounds the blocks visited. -/
def energy_loop (term : block → ℚ) (h : List block) : Nat → Option Nat → ℚ → Option ℚ
  | _, none, r => some r
  | 0, some _, _ => none
  | fuel + 1, some q, r =>
    match h[q]? with
    | none => none
    | some b => energy_loop term h fuel b.next (r + term b)

/-- The energy accumulator of `UpdateDrawFrame`: for each tracked series a new node with
`rec = 0` is put in front of the history and the terms of the chain are added to it. -/
def sample_energy (p : Params) (s : Sim) : Option Sim :=
  let kinetic : Option (List ℚ) :=
    if p.plot = Plot.KINETIC ∨ p.plot = Plot.ALL then
      match energy_loop kinetic_term s.heap s.heap.length s.startBlock 0 with
      | some r => some (r :: s.kineticHist)
      | none => none
    else some s.kineticHist
  let potential : Option (List ℚ) :=
    if p.plot = Plot.POTENTIAL ∨ p.plot = Plot.ALL then
      match energy_loop potential_term s.heap s.heap.length s.startBlock 0 with
      | some r => some (r :: s.potentialHist)
      | none => none
    else some s.potentialHist
  match kinetic, potential with
  | some k, some q => some { s with kineticHist := k, potentialHist := q }
  | _, _ => none

/-- The `if (not paused)` block of `UpdateDrawFrame`: the substeps, then the energy
samples. -/
def update_frame (p : Params) (frameTime : ℚ) (s : Sim) : Option Sim :=
  if s.paused then some s
  else
    match substeps p (iter_count p frameTime).toNat s with
    | some s1 => sample_energy p s1
    | none => none

/-- The walk of `draw_graph` from node `b` with counter `i`: the nodes that stay linked
behind `a`. -/
def trim_walk : Int → List ℚ → List ℚ
  | _, [] => []
  | i, b :: rest => if i > 0 then b :: trim_walk (i - 1) rest else []

/-- Source `draw_graph` without the drawing calls, for `SCREEN_WIDTH = W`: the new `max_rec`
and the history after the cut `a->old = nullptr`; `none` when `start` is `nullptr`. -/
def draw_graph (W : Int) (max_rec : ℚ) (start : List ℚ) : Option (ℚ × List ℚ) :=
  match start with
  | [] => none
  | r :: old => some (if r > max_rec then r else max_rec, r :: trim_walk W old)

/-- The selection loop of `UpdateDrawFrame`: from `a = startBlock`, follow `next` while the
mouse abscissa is outside `[a->x*meter, a->x*meter + b_width]`; the result is `selected`. -/
def select_walk (meter mouse_x : ℚ) (h : List block) : Nat → Option Nat → Option (Option Nat)
  | _, none => some none
  | 0, some _ => none
  | fuel + 1, some q =>
    match h[q]? with
    | none => none
    | some a =>
      if mouse_x < a.x * meter ∨ mouse_x > a.x * meter + (block_width : ℚ) * meter then
        select_walk meter mouse_x h fuel a.next
      else some (some q)

/-- The mouse-click branch of `UpdateDrawFrame`: on the block row the selection loop runs,
elsewhere `selected = nullptr`. -/
def select_block (meter mouse_x mouse_y : ℚ) (SCREEN_HEIGHT : Int) (s : Sim) : Option Sim :=
  let b_width : ℚ := (block_width : ℚ) * meter
  if mouse_y ≤ ((SCREEN_HEIGHT : ℚ) + b_width) / 2 ∧
      mouse_y ≥ ((SCREEN_HEIGHT : ℚ) - b_width) / 2 then
    match select_walk meter mouse_x s.heap s.heap.length s.startBlock with
    | some a => some { s with selected := a }
    | none => none
  else some { s with selected := none }

/-- The body interval `[x, x + block_width]` of block `a` contains the coordinate `c`. -/
def body_contains (a : block) (c : ℚ) : Prop :=
  a.x ≤ c ∧ c ≤ a.x + (block_width : ℚ)

/-- The Runge-Kutta velocity as the specification words it, for comparison with
`compute_vel`: `k1` at the block itself, `k2` and `k3` at the half-step states, `k4` at the
full-step state `x + v3*dt`, `v3 = v + k3*dt`, `e + v_e*dt`, and
`v + (k1 + 2*k2 + 2*k3 + k4)*dt/6`. -/
def rk4_velocity_spec (p : Params) (dt : ℚ) (b : block) (prv nxt : Option block) : ℚ :=
  let k1 : ℚ := compute_accel p b prv nxt
  let v1 : ℚ := b.v + k1 * dt / 2
  let k2 : ℚ :=
    compute_accel p { b with x := b.x + v1 * dt / 2, v := v1, e := b.e + p.v_e * dt / 2 }
      prv nxt
  let v2 : ℚ := b.v + k2 * dt / 2
  let k3 : ℚ :=
    compute_accel p { b with x := b.x + v2 * dt / 2, v := v2, e := b.e + p.v_e * dt / 2 }
      prv nxt
  let v3 : ℚ := b.v + k3 * dt
  let k4 : ℚ :=
    compute_accel p { b with x := b.x + v3 * dt, v := v3, e := b.e + p.v_e * dt } prv nxt
  b.v + (k1 + 2 * k2 + 2 * k3 + k4) * dt / 6

/-- The Runge-Kutta velocity of the source written with its four evaluations: `k_4` is
taken at the position and velocity of the `k_3` state, only the anchor is at the full
step. -/
def rk4_velocity_code (p : Params) (dt : ℚ) (b : block) (prv nxt : Option block) : ℚ :=
  let k1 : ℚ := compute_accel p b prv nxt
  let v1 : ℚ := b.v + k1 * (dt / 2)
  let k2 : ℚ :=
    compute_accel p
      { b with a := k1, x := b.x + v1 * (dt / 2), v := v1, e := b.e + p.v_e * (dt / 2) }
      prv nxt
  let v2 : ℚ := b.v + k2 * (dt / 2)
  let k3 : ℚ :=
    compute_accel p
      { b with a := k1, x := b.x + v2 * (dt / 2), v := v2, e := b.e + p.v_e * (dt / 2) }
      prv nxt
  let k4 : ℚ :=
    compute_accel p
      { b with a := k1, x := b.x + v2 * (dt / 2), v := v2, e := b.e + p.v_e * dt } prv nxt
  b.v + (k1 + 2 * k2 + 2 * k3 + k4) * dt / 6

/-- The acceleration lines 205-207 of `update_block` leave in `b.a`, read off the `LEAPFROG`
branch itself: on a copy of the block whose static friction is `0` the stick test
`mod(b.a) < b.friction` cannot hold, so the `a` the update stores is the one it computed. -/
def stored_accel (p : Params) (dt : ℚ) (b : block) (prv nxt : Option block) : ℚ :=
  (update_leapfrog p dt { b with friction := 0 } prv nxt).a

/-- The term block `b` receives from its right neighbour `n`: what the presence of `n`
adds to the acceleration the `LEAPFROG` branch stores for `b`
(`b.a += b.k_c*(b.next->x - b.x - block_width)`). -/
def from_next (p : Params) (dt : ℚ) (b n : block) : ℚ :=
  stored_accel p dt b none (some n) - stored_accel p dt b none none

/-- The term block `c` receives from its left neighbour `q`: what the presence of `q` adds
to the acceleration the `LEAPFROG` branch stores for `c`
(`b.a -= b.prev->k_c*(b.x - b.prev->x - block_width)`). -/
def from_prev (p : Params) (dt : ℚ) (c q : block) : ℚ :=
  stored_accel p dt c (some q) none - stored_accel p dt c none none

/-- The neighbour-spring contribution to the acceleration the `LEAPFROG` branch stores for
the block at address `i` of the snapshot `h`: the stored acceleration with both
neighbours less the one without neighbours. -/
def spring_in (p : Params) (dt : ℚ) (h : List block) (i : Nat) : ℚ :=
  match h[i]? with
  | none => 0
  | some b => stored_accel p dt b (left_of h i) (right_of h i) - stored_accel p dt b none none

/-- The pull of the spring between the blocks at addresses `i - 1` and `i` of the snapshot
`h`, with the stiffness `k_c` of the left one (`0` when one of the two is missing). -/
def link_pull (h : List block) (i : Nat) : ℚ :=
  match h[i]?, left_of h i with
  | some c, some q => q.k_c * (c.x - q.x - block_width)
  | _, _ => 0

/-- A block of the given position, velocity, anchor and static friction with the spring
constants of `config`. -/
def sample_block (x v e friction : ℚ) (prev next : Option Nat) : block :=
  { index := 2, x := x, v := v, v_prev := 0, a := 0, e := e, k_p := 1, k_c := 2 / 5,
    friction := friction, prev := prev, next := next }

/-- A left neighbour at `x = 0`. -/
def sample_left : block :=
  { index := 1, x := 0, v := 0, v_prev := 0, a := 0, e := 6, k_p := 1, k_c := 2 / 5,
    friction := 15, prev := none, next := some 1 }

/-- A right neighbour at `x = 18`. -/
def sample_right : block :=
  { index := 3, x := 18, v := 0, v_prev := 0, a := 0, e := 24, k_p := 1, k_c := 2 / 5,
    friction := 15, prev := some 1, next := none }

/-- A one-block chain at rest with the source spring constants: `x = 0`, anchor `e = 6`,
static friction `15`, `max_x = 0`. -/
def sample_sim : Sim :=
  { heap := [sample_block 0 0 6 15 none none], startBlock := some 0, selected := none,
    max_x := 0, paused := false, max_rec := 100, kineticHist := [0], potentialHist := [0] }

/-- A sequence of draws for the examples: the draw for block `k` is `(7*k) mod 21`. -/
def sample_draw (k : Nat) : Fin (random_steps + 1) :=
  ⟨(7 * k) % (random_steps + 1), Nat.mod_lt _ (Nat.succ_pos _)⟩

/-- Contents for the unassigned `v_prev` fields in the examples. -/
def sample_uninit (k : Nat) : ℚ :=
  (k : ℚ) / 3

/-- The source constants with the `EULER` scheme configured. -/
def config_euler : Params :=
  { config with integrate := I_Method.EULER }

/-- The source constants with the `RUNGEKUTTA` scheme configured. -/
def config_rungekutta : Params :=
  { config with integrate := I_Method.RUNGEKUTTA }

/-- A one-block chain whose block moves backwards with `v = -2` (and `v_prev = 0`). -/
def sample_sim_moving : Sim :=
  { heap := [sample_block 0 (-2) 6 15 none none], startBlock := some 0, selected := none,
    max_x := 0, paused := false, max_rec := 100, kineticHist := [0], potentialHist := [0] }

/-! ## Basic facts about the scalar helpers -/

theorem mod_eq_abs (a : ℚ) : mod a = |a| := by
  unfold mod
  split_ifs with h
  · exact (abs_of_neg h).symm
  · exact (abs_of_nonneg (not_lt.mp h)).symm

theorem max_eq_sup (a b : ℚ) : max a b = a ⊔ b := by
  unfold max
  split_ifs with h
  · exact (sup_of_le_left h).symm
  · exact (sup_of_le_right (le_of_lt (not_le.mp h))).symm

theorem max_zero_nonneg (a : ℚ) : 0 ≤ max a 0 := by
  rw [max_eq_sup]
  exact le_sup_right

theorem sign_zero : sign 0 = 1 := by
  simp [sign]

theorem neighbour_term_eq (p : Params) (b : block) (prv nxt : Option block) :
    compute_accel p b prv nxt =
      if mod b.v ≤ p.v_epsilon then
        max (neighbour_term b prv nxt + b.k_p * (b.e - b.x) - sign b.v * b.friction) 0
      else neighbour_term b prv nxt + b.k_p * (b.e - b.x) - sign b.v * p.friction_d := by
  cases prv <;> cases nxt <;> simp [compute_accel, neighbour_term]

/-! ## Force model (`compute_accel`) -/

/-- C1: `compute_accel` returns `max(N + k_p*(e - x) - sign(v)*friction, 0)` when
`|v| <= v_epsilon`, which is never negative, and `N + k_p*(e - x) - sign(v)*friction_d`,
unclamped, when `|v| > v_epsilon`; `N` is the neighbour-spring term and `friction` the
static friction of the block. -/
theorem C1_compute_accel_stick_slip (p : Params) (b : block) (prv nxt : Option block) :
    (|b.v| ≤ p.v_epsilon →
      compute_accel p b prv nxt =
          (neighbour_term b prv nxt + b.k_p * (b.e - b.x) - sign b.v * b.friction) ⊔ 0 ∧
        0 ≤ compute_accel p b prv nxt) ∧
    (p.v_epsilon < |b.v| →
      compute_accel p b prv nxt =
        neighbour_term b prv nxt + b.k_p * (b.e - b.x) - sign b.v * p.friction_d) := by
  rw [neighbour_term_eq, mod_eq_abs]
  constructor
  · intro h
    rw [if_pos h, max_eq_sup]
    exact ⟨rfl, le_sup_right⟩
  · intro h
    rw [if_neg (not_le.mpr h)]

/-- A block at rest next to both neighbours, with a large pull of the driver spring, and a
moving copy of it: the clamped and the unclamped branch of C1 at concrete values. -/
theorem C1_compute_accel_stick_slip_witness :
    compute_accel config (sample_block 9 0 40 15 (some 0) (some 2))
        (some sample_left) (some sample_right) = 56 / 5 ∧
    compute_accel config (sample_block 9 1 40 15 (some 0) (some 2))
        (some sample_left) (some sample_right) = 81 / 5 := by
  constructor
  · rw [((C1_compute_accel_stick_slip config _ _ _).1
      (by norm_num [config, sample_block])).1]
    norm_num [neighbour_term, sign, block_width, sample_block, sample_left]
  · rw [(C1_compute_accel_stick_slip config _ _ _).2 (by norm_num [config, sample_block])]
    norm_num [neighbour_term, sign, block_width, config, sample_block, sample_left]

/-- C2, refuted as stated: for a moving block at `x = 9` between neighbours at `x = 0` and
`x = 18`, `compute_accel` does not return the value built from the right-neighbour term
`k_c*(next.x - x - block_width) = 12/5`; it returns `-44/5`, the value built from the
left-neighbour term `prev.k_c*(prev.x - x - block_width) = -24/5`. -/
theorem C2_right_precedence_counterexample :
    compute_accel config (sample_block 9 1 15 15 (some 0) (some 2))
        (some sample_left) (some sample_right) ≠
      (sample_block 9 1 15 15 (some 0) (some 2)).k_c *
          (sample_right.x - (sample_block 9 1 15 15 (some 0) (some 2)).x - block_width) +
        (sample_block 9 1 15 15 (some 0) (some 2)).k_p *
          ((sample_block 9 1 15 15 (some 0) (some 2)).e -
            (sample_block 9 1 15 15 (some 0) (some 2)).x) -
        sign (sample_block 9 1 15 15 (some 0) (some 2)).v * config.friction_d ∧
    compute_accel config (sample_block 9 1 15 15 (some 0) (some 2))
        (some sample_left) (some sample_right) = -44 / 5 := by
  constructor <;>
    norm_num [compute_accel, mod, max, sign, block_width, config, sample_block, sample_left,
      sample_right]

/-- C2, amended: the left neighbour takes precedence.  With a left neighbour `q` the
neighbour-spring term of `compute_accel` is `q.k_c*(q.x - x - block_width)` whatever the
right neighbour is; the right-neighbour term `k_c*(n.x - x - block_width)` is used only
when the block has no left neighbour. -/
theorem C2_left_neighbour_precedence (p : Params) (b q n : block) (nxt : Option block) :
    compute_accel p b (some q) nxt =
      (if |b.v| ≤ p.v_epsilon then
        (q.k_c * (q.x - b.x - block_width) + b.k_p * (b.e - b.x) - sign b.v * b.friction) ⊔ 0
      else q.k_c * (q.x - b.x - block_width) + b.k_p * (b.e - b.x)
            - sign b.v * p.friction_d) ∧
    compute_accel p b none (some n) =
      (if |b.v| ≤ p.v_epsilon then
        (b.k_c * (n.x - b.x - block_width) + b.k_p * (b.e - b.x) - sign b.v * b.friction) ⊔ 0
      else b.k_c * (n.x - b.x - block_width) + b.k_p * (b.e - b.x)
            - sign b.v * p.friction_d) := by
  constructor
  · rw [neighbour_term_eq, mod_eq_abs, max_eq_sup]
    rfl
  · rw [neighbour_term_eq, mod_eq_abs, max_eq_sup]
    rfl

/-! ## The `LEAPFROG` integrator (`update_block`) -/

theorem update_leapfrog_eq (p : Params) (dt : ℚ) (b : block) (prv nxt : Option block) :
    update_leapfrog p dt b prv nxt =
      if leapfrog_sticks p b (leapfrog_accel p b prv nxt)
          (b.v + dt * leapfrog_accel p b prv nxt) then
        { b with v_prev := b.v, a := 0, v := 0, x := b.x, e := b.e + p.v_e * dt }
      else
        { b with v_prev := b.v, a := leapfrog_accel p b prv nxt,
                 v := b.v + dt * leapfrog_accel p b prv nxt,
                 x := b.x + dt * (b.v + dt * leapfrog_accel p b prv nxt),
                 e := b.e + p.v_e * dt } := by
  have key : ∀ a : ℚ,
      (let b1 : block := { b with a := a }
       let b2 : block := { b1 with v_prev := b1.v }
       let b3 : block := { b2 with v := b2.v_prev + dt * b2.a }
       let b4 : block :=
         if b3.v * b3.v_prev < 0 ∨ mod b3.v < p.v_epsilon then
           if mod b3.a < b3.friction then { b3 with a := 0, v := 0 } else b3
         else b3
       let b5 : block := { b4 with x := b4.x + dt * b4.v }
       ({ b5 with e := b5.e + p.v_e * dt } : block)) =
      if leapfrog_sticks p b a (b.v + dt * a) then
        { b with v_prev := b.v, a := 0, v := 0, x := b.x, e := b.e + p.v_e * dt }
      else
        { b with v_prev := b.v, a := a, v := b.v + dt * a,
                 x := b.x + dt * (b.v + dt * a), e := b.e + p.v_e * dt } := by
    intro a
    simp only [leapfrog_sticks, mod_eq_abs]
    by_cases h1 : (b.v + dt * a) * b.v < 0 ∨ |b.v + dt * a| < p.v_epsilon
    · by_cases h2 : |a| < b.friction
      · simp [h1, h2]
      · simp [h1, h2]
    · simp [h1]
  cases prv <;> cases nxt <;>
    simp only [update_leapfrog, leapfrog_accel, add_zero, sub_zero] <;>
    exact key _

theorem leapfrog_accel_eq (p : Params) (b : block) (prv nxt : Option block) :
    leapfrog_accel p b prv nxt = elastic_force b prv nxt - sign b.v * p.friction_d := by
  unfold leapfrog_accel elastic_force
  ring

theorem update_block_leapfrog (p : Params) (dt : ℚ) (b : block) (prv nxt : Option block)
    (hL : p.integrate = I_Method.LEAPFROG) :
    update_block p dt b prv nxt = update_leapfrog p dt b prv nxt := by
  simp only [update_block, hL]

theorem update_block_stuck (p : Params) (dt : ℚ) (b : block) (prv nxt : Option block)
    (hL : p.integrate = I_Method.LEAPFROG)
    (hs : leapfrog_sticks p b (leapfrog_accel p b prv nxt)
      (b.v + dt * leapfrog_accel p b prv nxt)) :
    update_block p dt b prv nxt = stuck_block p dt b := by
  rw [update_block_leapfrog p dt b prv nxt hL, update_leapfrog_eq, if_pos hs]
  rfl

/-- A block at rest sticks when the acceleration is below the static friction and too small
to carry the velocity over `v_epsilon` in one step. -/
theorem rest_block_sticks (p : Params) (dt : ℚ) (b : block) (prv nxt : Option block)
    (hv : b.v = 0) (hsmall : |dt * leapfrog_accel p b prv nxt| < p.v_epsilon)
    (hfr : |leapfrog_accel p b prv nxt| < b.friction) :
    leapfrog_sticks p b (leapfrog_accel p b prv nxt)
      (b.v + dt * leapfrog_accel p b prv nxt) := by
  refine ⟨Or.inr ?_, hfr⟩
  rw [hv, zero_add]
  exact hsmall

theorem rest_accel (p : Params) (b : block) (prv nxt : Option block) (hv : b.v = 0) :
    leapfrog_accel p b prv nxt = elastic_force b prv nxt - p.friction_d := by
  rw [leapfrog_accel_eq, hv, sign_zero]
  push_cast
  ring

theorem scale_friction_gt (p : Params) (U : Nat) (hfd : 0 < p.friction_d)
    (hprob : p.prob ≠ P_Distribution.ZERO) (hU : 1 ≤ U) :
    p.friction_d < scale_friction p U p.friction_d := by
  have hU0 : (0 : ℚ) < (U : ℚ) / (random_steps : ℚ) := by
    apply div_pos
    · exact_mod_cast hU
    · norm_num [random_steps]
  unfold scale_friction
  cases hp : p.prob with
  | ZERO => exact absurd hp hprob
  | UNIFORM =>
    simp only
    nlinarith
  | BINOMIAL =>
    simp only
    nlinarith

theorem stuck_rest_iterate (p : Params) (dt : ℚ) (prv nxt : Option block)
    (hL : p.integrate = I_Method.LEAPFROG) (hve : p.v_e = 0)
    (hd : |dt * p.friction_d| < p.v_epsilon) (b : block) (hv : b.v = 0)
    (hF : elastic_force b prv nxt = 0) (hfr : |p.friction_d| < b.friction) (k : Nat) :
    ((fun c => update_block p dt c prv nxt)^[k] b).x = b.x ∧
    ((fun c => update_block p dt c prv nxt)^[k] b).v = 0 ∧
    ((fun c => update_block p dt c prv nxt)^[k] b).e = b.e ∧
    ((fun c => update_block p dt c prv nxt)^[k] b).k_p = b.k_p ∧
    ((fun c => update_block p dt c prv nxt)^[k] b).k_c = b.k_c ∧
    ((fun c => update_block p dt c prv nxt)^[k] b).friction = b.friction := by
  induction k with
  | zero => exact ⟨rfl, hv, rfl, rfl, rfl, rfl⟩
  | succ k ih =>
    rw [Function.iterate_succ_apply']
    obtain ⟨hx, hv1, he, hkp, hkc, hf⟩ := ih
    generalize (fun c => update_block p dt c prv nxt)^[k] b = c at hx hv1 he hkp hkc hf
    have hFc : elastic_force c prv nxt = 0 := by
      rw [← hF]
      unfold elastic_force
      rw [hx, he, hkp, hkc]
    have ha : leapfrog_accel p c prv nxt = -p.friction_d := by
      rw [rest_accel p c prv nxt hv1, hFc, zero_sub]
    have hs := rest_block_sticks p dt c prv nxt hv1
      (by rw [ha, mul_neg, abs_neg]; exact hd) (by rw [ha, abs_neg, hf]; exact hfr)
    rw [update_block_stuck p dt c prv nxt hL hs]
    refine ⟨hx, rfl, ?_, hkp, hkc, hf⟩
    show c.e + p.v_e * dt = b.e
    rw [hve, zero_mul, add_zero, he]

/-- C4, refuted as stated: a block at rest (`v = v_prev = 0`) with no neighbour and anchor at
its own position (`e = x`, the elastic forces sum to `0`) whose static friction is the
sampler value for the draw `U = 0`, that is `friction_d`, does not stick: `|a| = 10` is not
below `friction = 10`, and one `LEAPFROG` update leaves `v = -1/10000` and
`x = -1/1000000000`. -/
theorem C4_rest_block_counterexample :
    (sample_block 0 0 0 10 none none).v = 0 ∧
    (sample_block 0 0 0 10 none none).v_prev = 0 ∧
    elastic_force (sample_block 0 0 0 10 none none) none none = 0 ∧
    (sample_block 0 0 0 10 none none).friction = scale_friction config 0 config.friction_d ∧
    (update_block config config.dt (sample_block 0 0 0 10 none none) none none).v
      = -1 / 10000 ∧
    (update_block config config.dt (sample_block 0 0 0 10 none none) none none).x
      = -1 / 1000000000 := by
  refine ⟨rfl, rfl, ?_, ?_, ?_, ?_⟩
  · norm_num [elastic_force, sample_block]
  · norm_num [scale_friction, sample_block, config]
  · norm_num [update_block, update_leapfrog, config, sample_block, sign, mod]
  · norm_num [update_block, update_leapfrog, config, sample_block, sign, mod]

/-- C4, amended: for a block at rest (`v = 0`) whose driver-spring and neighbour-spring
forces sum to zero, with `|dt*friction_d| < v_epsilon` (true of the source constants), one
`LEAPFROG` `update_block` leaves `x` and `v` unchanged for every static friction the sampler
assigns from a draw `U >= 1` (a friction strictly above `friction_d`); and with `v_e = 0`,
so that the forces keep summing to zero, any number of repeated updates leaves them
unchanged. -/
theorem C4_rest_block_sticks_above_friction_d (p : Params) (dt : ℚ) (b : block)
    (prv nxt : Option block) (U : Nat)
    (hL : p.integrate = I_Method.LEAPFROG) (hv : b.v = 0)
    (hF : elastic_force b prv nxt = 0) (hfd : 0 < p.friction_d)
    (hd : |dt * p.friction_d| < p.v_epsilon)
    (hprob : p.prob ≠ P_Distribution.ZERO) (hU : 1 ≤ U)
    (hfr : b.friction = scale_friction p U p.friction_d) :
    (update_block p dt b prv nxt).x = b.x ∧
    (update_block p dt b prv nxt).v = b.v ∧
    (p.v_e = 0 → ∀ k : Nat,
      ((fun c => update_block p dt c prv nxt)^[k] b).x = b.x ∧
      ((fun c => update_block p dt c prv nxt)^[k] b).v = b.v) := by
  have hgt : |p.friction_d| < b.friction := by
    rw [abs_of_pos hfd, hfr]
    exact scale_friction_gt p U hfd hprob hU
  have ha : leapfrog_accel p b prv nxt = -p.friction_d := by
    rw [rest_accel p b prv nxt hv, hF, zero_sub]
  have hs := rest_block_sticks p dt b prv nxt hv
    (by rw [ha, mul_neg, abs_neg]; exact hd) (by rw [ha, abs_neg]; exact hgt)
  rw [update_block_stuck p dt b prv nxt hL hs]
  refine ⟨rfl, hv.symm, ?_⟩
  intro hve k
  obtain ⟨hx, hv1, -⟩ := stuck_rest_iterate p dt prv nxt hL hve hd b hv hF hgt k
  exact ⟨hx, by rw [hv1, hv]⟩

/-- C4 (amended) at the source constants: a lone block at rest with `e = x` and the sampler
friction of the draw `U = 1`, `10*(1 + 1/20) = 21/2`, keeps `x = 0` and `v = 0`. -/
theorem C4_rest_block_sticks_above_friction_d_witness :
    (update_block config config.dt (sample_block 0 0 0 (21 / 2) none none) none none).x = 0 ∧
    (update_block config config.dt (sample_block 0 0 0 (21 / 2) none none) none none).v
      = 0 := by
  obtain ⟨hx, hv, -⟩ := C4_rest_block_sticks_above_friction_d config config.dt
    (sample_block 0 0 0 (21 / 2) none none) none none 1 rfl rfl
    (by norm_num [elastic_force, sample_block]) (by norm_num [config])
    (by norm_num [config, abs_lt]) (by simp [config]) (le_refl 1)
    (by norm_num [scale_friction, sample_block, config, random_steps])
  exact ⟨hx, hv⟩

/-! ## Construction of the chain (`compute_starting_blocks`) -/

theorem getElem?_lt_of_some {h : List block} {i : Nat} {b : block} (hb : h[i]? = some b) :
    i < h.length := by
  by_contra hcon
  rw [List.getElem?_eq_none (not_lt.mp hcon)] at hb
  exact Option.noConfusion hb

theorem starting_loop_spec (p : Params) (draw : Nat → Fin (random_steps + 1))
    (uninit : Nat → ℚ) (m : Nat) :
    (starting_loop p draw uninit m).1.length = m + 1 ∧
    (starting_loop p draw uninit m).2 = m ∧
    ∀ i, i ≤ m →
      (starting_loop p draw uninit m).1[i]? = some (built_block p draw uninit m i) := by
  induction m with
  | zero =>
    refine ⟨rfl, rfl, ?_⟩
    intro i hi
    have hi0 : i = 0 := Nat.le_zero.mp hi
    subst hi0
    rfl
  | succ m ih =>
    obtain ⟨hlen, ha, hget⟩ := ih
    have hstep : starting_loop p draw uninit (m + 1) =
        starting_step p draw uninit (m + 1) (starting_loop p draw uninit m) := rfl
    generalize starting_loop p draw uninit m = st at hlen ha hget hstep
    obtain ⟨h, a⟩ := st
    simp only at hlen ha hget
    subst ha
    have hm : (h ++ [loop_block p (draw (a + 1)).val (uninit (a + 1)) (a + 1) a])[a]? =
        some (built_block p draw uninit a a) := by
      rw [List.getElem?_append_left (by omega)]
      exact hget a (le_refl a)
    rw [hstep]
    simp only [starting_step, set_next, hm]
    refine ⟨?_, hlen, ?_⟩
    · simp [hlen]
    · intro i hi
      rw [List.getElem?_set]
      by_cases hia : a = i
      · subst hia
        rw [if_pos rfl, if_pos (by simp; omega)]
        simp [built_block, hlen]
      · rw [if_neg hia]
        by_cases hlt : i < a
        · rw [List.getElem?_append_left (by omega), hget i (le_of_lt hlt)]
          simp [built_block, hlt, Nat.lt_succ_of_lt hlt]
        · have hi1 : i = a + 1 := by omega
          subst hi1
          rw [List.getElem?_append_right (by omega)]
          simp [hlen, built_block, loop_block]

theorem starting_heap_get (p : Params) (draw : Nat → Fin (random_steps + 1))
    (uninit : Nat → ℚ) (s : Sim) (i : Nat) (hi : i ≤ p.N_BLOCKS - 1) :
    (compute_starting_blocks p draw uninit s).heap[i]? =
      some (built_block p draw uninit (p.N_BLOCKS - 1) i) :=
  (starting_loop_spec p draw uninit (p.N_BLOCKS - 1)).2.2 i hi

theorem starting_heap_length (p : Params) (draw : Nat → Fin (random_steps + 1))
    (uninit : Nat → ℚ) (s : Sim) :
    (compute_starting_blocks p draw uninit s).heap.length = p.N_BLOCKS - 1 + 1 :=
  (starting_loop_spec p draw uninit (p.N_BLOCKS - 1)).1

theorem starting_heap_linked (p : Params) (draw : Nat → Fin (random_steps + 1))
    (uninit : Nat → ℚ) (s : Sim) :
    linked (compute_starting_blocks p draw uninit s).heap := by
  intro i b hb
  have hlen := starting_heap_length p draw uninit s
  have hi : i < (compute_starting_blocks p draw uninit s).heap.length := by
    by_contra hcon
    rw [List.getElem?_eq_none (not_lt.mp hcon)] at hb
    exact Option.noConfusion hb
  rw [starting_heap_get p draw uninit s i (by omega)] at hb
  have hb1 : built_block p draw uninit (p.N_BLOCKS - 1) i = b := Option.some.inj hb
  subst hb1
  rw [hlen]
  by_cases h0 : i = 0
  · subst h0
    simp [built_block, start_block]
  · simp [built_block, loop_block, h0]

theorem chain_from_linked (h : List block) (hl : linked h) :
    ∀ (k i fuel : Nat), i + k = h.length → k ≤ fuel →
      chain_from h fuel (if i < h.length then some i else none) = some (List.range' i k) := by
  intro k
  induction k with
  | zero =>
    intro i fuel hik _
    rw [if_neg (by omega)]
    cases fuel <;> rfl
  | succ k ih =>
    intro i fuel hik hfuel
    obtain ⟨f, rfl⟩ : ∃ f, fuel = f + 1 := ⟨fuel - 1, by omega⟩
    have hi : i < h.length := by omega
    rw [if_pos hi]
    have hb : h[i]? = some h[i] := List.getElem?_eq_getElem hi
    have hnext := (hl i h[i] hb).2
    simp only [chain_from, hb, hnext]
    rw [ih (i + 1) f (by omega) (by omega)]
    rfl

/-- C7: for `n >= 1` the chain built by `compute_starting_blocks` has exactly `n` blocks;
walking from the head along `next` ends at `nullptr` after meeting the `n` blocks once each,
with `index` values `1, 2, ..., n`; the head has `prev == nullptr`, the last block
`next == nullptr`, and `b.next.prev = b` for every block with a successor. -/
theorem C7_chain_structure (p : Params) (draw : Nat → Fin (random_steps + 1))
    (uninit : Nat → ℚ) (s : Sim) (hn : 1 ≤ p.N_BLOCKS) :
    (compute_starting_blocks p draw uninit s).heap.length = p.N_BLOCKS ∧
    (compute_starting_blocks p draw uninit s).startBlock = some 0 ∧
    chain (compute_starting_blocks p draw uninit s) = some (List.range p.N_BLOCKS) ∧
    (∀ i, i < p.N_BLOCKS →
      ∃ b, (compute_starting_blocks p draw uninit s).heap[i]? = some b ∧
        b.index = (i : Int) + 1 ∧
        b.prev = (if i = 0 then none else some (i - 1)) ∧
        b.next = (if i + 1 < p.N_BLOCKS then some (i + 1) else none)) ∧
    (∀ (i j : Nat) (b : block),
      (compute_starting_blocks p draw uninit s).heap[i]? = some b → b.next = some j →
      ∃ c : block,
        (compute_starting_blocks p draw uninit s).heap[j]? = some c ∧ c.prev = some i) := by
  have hlen : (compute_starting_blocks p draw uninit s).heap.length = p.N_BLOCKS := by
    rw [starting_heap_length]
    omega
  have hl := starting_heap_linked p draw uninit s
  refine ⟨hlen, rfl, ?_, ?_, ?_⟩
  · have hc := chain_from_linked _ hl p.N_BLOCKS 0
      (compute_starting_blocks p draw uninit s).heap.length (by omega) (by omega)
    rw [if_pos (by omega)] at hc
    unfold chain
    rw [List.range_eq_range']
    exact hc
  · intro i hi
    refine ⟨_, starting_heap_get p draw uninit s i (by omega), ?_, ?_⟩
    · by_cases h0 : i = 0
      · subst h0
        simp [built_block, start_block]
      · simp [built_block, loop_block, h0]
    · have hb := hl i _ (starting_heap_get p draw uninit s i (by omega))
      rw [hlen] at hb
      exact hb
  · intro i j b hb hj
    have hnext := (hl i b hb).2
    rw [hj, hlen] at hnext
    have hij : i + 1 < p.N_BLOCKS ∧ j = i + 1 := by
      by_cases hlt : i + 1 < p.N_BLOCKS
      · rw [if_pos hlt] at hnext
        exact ⟨hlt, Option.some.inj hnext⟩
      · rw [if_neg hlt] at hnext
        exact Option.noConfusion hnext
    obtain ⟨hlt, rfl⟩ := hij
    refine ⟨_, starting_heap_get p draw uninit s (i + 1) (by omega), ?_⟩
    have hc := (hl (i + 1) _ (starting_heap_get p draw uninit s (i + 1) (by omega))).1
    rw [hc]
    simp

/-- C7 at the source constants (`N_BLOCKS = 10`): ten blocks, met once each from the head. -/
theorem C7_chain_structure_witness :
    (compute_starting_blocks config sample_draw sample_uninit initial_sim).heap.length = 10 ∧
    chain (compute_starting_blocks config sample_draw sample_uninit initial_sim)
      = some [0, 1, 2, 3, 4, 5, 6, 7, 8, 9] := by
  obtain ⟨hlen, -, hchain, -⟩ :=
    C7_chain_structure config sample_draw sample_uninit initial_sim (by decide)
  exact ⟨hlen, hchain⟩

theorem built_block_fields (p : Params) (draw : Nat → Fin (random_steps + 1))
    (uninit : Nat → ℚ) (m i : Nat) :
    (built_block p draw uninit m i).index = (i : Int) + 1 ∧
    (built_block p draw uninit m i).x = 3 * (block_width : ℚ) * (i : ℚ) ∧
    (built_block p draw uninit m i).e = (block_width : ℚ) * (3 * (i : ℚ) + 2) ∧
    (built_block p draw uninit m i).v = 0 ∧
    (built_block p draw uninit m i).a = 0 ∧
    (built_block p draw uninit m i).k_p = p.k_p ∧
    (built_block p draw uninit m i).k_c = p.k_c ∧
    (built_block p draw uninit m i).friction = scale_friction p (draw i).val p.friction_d := by
  by_cases h0 : i = 0
  · subst h0
    simp [built_block, start_block]
    ring
  · simp [built_block, loop_block, h0]

theorem starting_max_x (p : Params) (draw : Nat → Fin (random_steps + 1))
    (uninit : Nat → ℚ) (s : Sim) :
    (compute_starting_blocks p draw uninit s).max_x =
      (built_block p draw uninit (p.N_BLOCKS - 1) (p.N_BLOCKS - 1)).x := by
  have hspec := starting_loop_spec p draw uninit (p.N_BLOCKS - 1)
  have h2 := hspec.2.2 (p.N_BLOCKS - 1) (le_refl _)
  have h1 := hspec.2.1
  simp only [compute_starting_blocks, h1, h2]

theorem starting_x_le_max (p : Params) (draw : Nat → Fin (random_steps + 1))
    (uninit : Nat → ℚ) (s : Sim) (i : Nat) (b : block)
    (hb : (compute_starting_blocks p draw uninit s).heap[i]? = some b) :
    b.x ≤ (compute_starting_blocks p draw uninit s).max_x := by
  have hi := getElem?_lt_of_some hb
  rw [starting_heap_length] at hi
  rw [starting_heap_get p draw uninit s i (by omega)] at hb
  have hb1 := Option.some.inj hb
  subst hb1
  rw [starting_max_x, (built_block_fields p draw uninit _ i).2.1,
    (built_block_fields p draw uninit _ (p.N_BLOCKS - 1)).2.1]
  have hle : (i : ℚ) ≤ ((p.N_BLOCKS - 1 : Nat) : ℚ) := by
    exact_mod_cast Nat.lt_succ_iff.mp hi
  have hbw : (0 : ℚ) ≤ 3 * (block_width : ℚ) := by
    norm_num [block_width]
  exact mul_le_mul_of_nonneg_left hle hbw

/-- C8: in a freshly built chain of `n >= 1` blocks the `i`-th block (`1 <= i <= n`) has
`x = 3*block_width*(i-1)`, `e = block_width*(3*(i-1)+2)`, `v = a = 0` and the configured
`k_p`, `k_c`; `max_x` is the last block's `x`, no block has a greater `x`, and `selected`
is `nullptr`. -/
theorem C8_initial_layout (p : Params) (draw : Nat → Fin (random_steps + 1))
    (uninit : Nat → ℚ) (s : Sim) (hn : 1 ≤ p.N_BLOCKS) :
    (∀ i : Nat, 1 ≤ i → i ≤ p.N_BLOCKS →
      ∃ b : block, (compute_starting_blocks p draw uninit s).heap[i - 1]? = some b ∧
        b.index = (i : Int) ∧
        b.x = 3 * (block_width : ℚ) * ((i : ℚ) - 1) ∧
        b.e = (block_width : ℚ) * (3 * ((i : ℚ) - 1) + 2) ∧
        b.v = 0 ∧ b.a = 0 ∧ b.k_p = p.k_p ∧ b.k_c = p.k_c) ∧
    (∃ last : block,
      (compute_starting_blocks p draw uninit s).heap[p.N_BLOCKS - 1]? = some last ∧
      last.next = none ∧
      (compute_starting_blocks p draw uninit s).max_x = last.x) ∧
    (∀ (i : Nat) (b : block), (compute_starting_blocks p draw uninit s).heap[i]? = some b →
      b.x ≤ (compute_starting_blocks p draw uninit s).max_x) ∧
    (compute_starting_blocks p draw uninit s).selected = none := by
  have hlast := starting_heap_get p draw uninit s (p.N_BLOCKS - 1) (le_refl _)
  refine ⟨?_, ⟨_, hlast, ?_, starting_max_x p draw uninit s⟩,
    starting_x_le_max p draw uninit s, rfl⟩
  · intro i hi1 hin
    refine ⟨_, starting_heap_get p draw uninit s (i - 1) (by omega), ?_⟩
    obtain ⟨h1, h2, h3, h4, h5, h6, h7, -⟩ :=
      built_block_fields p draw uninit (p.N_BLOCKS - 1) (i - 1)
    have hc : ((i - 1 : Nat) : ℚ) = (i : ℚ) - 1 := by
      rw [Nat.cast_sub hi1]
      simp
    rw [hc] at h2 h3
    refine ⟨?_, h2, h3, h4, h5, h6, h7⟩
    rw [h1]
    omega
  · simp [built_block]

/-- C8 at the source constants: the fourth of the ten blocks is at `x = 27` with anchor
`e = 33`, and `max_x` is `81`, the position of the tenth block. -/
theorem C8_initial_layout_witness :
    (∃ b : block,
      (compute_starting_blocks config sample_draw sample_uninit initial_sim).heap[3]? = some b ∧
      b.index = 4 ∧ b.x = 27 ∧ b.e = 33 ∧ b.v = 0 ∧ b.a = 0 ∧ b.k_p = 1 ∧ b.k_c = 2 / 5) ∧
    (compute_starting_blocks config sample_draw sample_uninit initial_sim).max_x = 81 := by
  obtain ⟨hall, ⟨last, hlast, -, hmax⟩, -, -⟩ :=
    C8_initial_layout config sample_draw sample_uninit initial_sim (by decide)
  constructor
  · obtain ⟨b, hb, h1, h2, h3, h4, h5, h6, h7⟩ := hall 4 (by decide) (by decide)
    refine ⟨b, hb, h1, ?_, ?_, h4, h5, h6, h7⟩
    · rw [h2]
      norm_num [block_width]
    · rw [h3]
      norm_num [block_width]
  · obtain ⟨b, hb, -, h2, -⟩ := hall 10 (by decide) (by decide)
    have hb9 : (compute_starting_blocks config sample_draw sample_uninit initial_sim).heap[9]?
        = some b := hb
    have hl9 : (compute_starting_blocks config sample_draw sample_uninit initial_sim).heap[9]?
        = some last := hlast
    rw [hb9] at hl9
    rw [hmax, ← Option.some.inj hl9, h2]
    norm_num [block_width]

theorem scale_friction_bounds (p : Params) (U : Nat) (hfd : 0 ≤ p.friction_d)
    (hU : U ≤ random_steps) :
    p.friction_d ≤ scale_friction p U p.friction_d ∧
    scale_friction p U p.friction_d ≤ 2 * p.friction_d := by
  have h0 : (0 : ℚ) ≤ (U : ℚ) / (random_steps : ℚ) := by
    apply div_nonneg
    · exact Nat.cast_nonneg U
    · exact Nat.cast_nonneg random_steps
  have h1 : (U : ℚ) / (random_steps : ℚ) ≤ 1 := by
    rw [div_le_one (by norm_num [random_steps])]
    exact_mod_cast hU
  unfold scale_friction
  cases p.prob with
  | ZERO =>
    simp only
    constructor <;> linarith
  | UNIFORM =>
    simp only
    constructor <;> nlinarith
  | BINOMIAL =>
    simp only
    constructor <;> nlinarith

/-- C9: every block built by `compute_starting_blocks` has static friction `friction_d`
under `ZERO` and `friction_d*(1 + U/steps)` under `UNIFORM` or `BINOMIAL`, where `U` is the
integer drawn for it, `0 <= U <= steps = 20`; so (for `friction_d >= 0`) the static friction
lies in `[friction_d, 2*friction_d]`. -/
theorem C9_static_friction_range (p : Params) (draw : Nat → Fin (random_steps + 1))
    (uninit : Nat → ℚ) (s : Sim) (hfd : 0 ≤ p.friction_d) (i : Nat) (b : block)
    (hb : (compute_starting_blocks p draw uninit s).heap[i]? = some b) :
    (p.prob = P_Distribution.ZERO → b.friction = p.friction_d) ∧
    (p.prob = P_Distribution.UNIFORM ∨ p.prob = P_Distribution.BINOMIAL →
      b.friction = p.friction_d * (1 + ((draw i).val : ℚ) / (random_steps : ℚ))) ∧
    (draw i).val ≤ random_steps ∧ random_steps = 20 ∧
    p.friction_d ≤ b.friction ∧ b.friction ≤ 2 * p.friction_d := by
  have hi : i < (compute_starting_blocks p draw uninit s).heap.length := by
    by_contra hcon
    rw [List.getElem?_eq_none (not_lt.mp hcon)] at hb
    exact Option.noConfusion hb
  rw [starting_heap_length] at hi
  rw [starting_heap_get p draw uninit s i (by omega)] at hb
  have hb1 := Option.some.inj hb
  subst hb1
  have hfr := (built_block_fields p draw uninit (p.N_BLOCKS - 1) i).2.2.2.2.2.2.2
  have hU : (draw i).val ≤ random_steps := Nat.lt_succ_iff.mp (draw i).isLt
  have hbd := scale_friction_bounds p (draw i).val hfd hU
  rw [hfr]
  refine ⟨?_, ?_, hU, rfl, hbd.1, hbd.2⟩
  · intro hz
    simp [scale_friction, hz]
  · intro hub
    rcases hub with hu | hu <;> simp [scale_friction, hu]

/-- C9 at the source constants (`BINOMIAL`, `friction_d = 10`): the block at address 1
gets the draw `7` and the static friction `10*(1 + 7/20) = 27/2`, inside `[10, 20]`. -/
theorem C9_static_friction_range_witness :
    ∃ b : block,
      (compute_starting_blocks config sample_draw sample_uninit initial_sim).heap[1]? = some b ∧
      b.friction = 27 / 2 ∧ 10 ≤ b.friction ∧ b.friction ≤ 20 := by
  have hb := starting_heap_get config sample_draw sample_uninit initial_sim 1 (by decide)
  obtain ⟨-, h2, -, -, h5, h6⟩ :=
    C9_static_friction_range config sample_draw sample_uninit initial_sim
      (by norm_num [config]) 1 _ hb
  refine ⟨_, hb, ?_, ?_, ?_⟩
  · rw [h2 (Or.inr rfl)]
    norm_num [config, sample_draw, random_steps]
  · have : config.friction_d = 10 := rfl
    rw [this] at h5
    exact h5
  · have : config.friction_d = 10 := rfl
    rw [this] at h6
    norm_num at h6
    exact h6

/-! ## The substep loop on a linked heap -/

theorem load_prev_linked (h : List block) (hl : linked h) (i : Nat) (b : block)
    (hb : h[i]? = some b) : load h b.prev = some (left_of h i) := by
  have hi := getElem?_lt_of_some hb
  rw [(hl i b hb).1]
  unfold left_of
  by_cases h0 : i = 0
  · rw [if_pos h0, if_pos h0]
    rfl
  · rw [if_neg h0, if_neg h0]
    have hlt : i - 1 < h.length := by omega
    simp only [load, List.getElem?_eq_getElem hlt]

theorem load_next_linked (h : List block) (hl : linked h) (i : Nat) (b : block)
    (hb : h[i]? = some b) : load h b.next = some (right_of h i) := by
  rw [(hl i b hb).2]
  unfold right_of
  by_cases h1 : i + 1 < h.length
  · rw [if_pos h1]
    simp only [load, List.getElem?_eq_getElem h1]
  · rw [if_neg h1, List.getElem?_eq_none (not_lt.mp h1)]
    rfl

theorem update_at_linked (p : Params) (dt : ℚ) (h : List block) (hl : linked h) (i : Nat)
    (b : block) (hb : h[i]? = some b) :
    update_at p dt h i =
      some (h.set i (update_block p dt b (left_of h i) (right_of h i))) := by
  simp only [update_at, hb, load_prev_linked h hl i b hb, load_next_linked h hl i b hb]

theorem update_block_ptrs (p : Params) (dt : ℚ) (b : block) (prv nxt : Option block) :
    (update_block p dt b prv nxt).prev = b.prev ∧
    (update_block p dt b prv nxt).next = b.next := by
  unfold update_block
  cases p.integrate with
  | LEAPFROG =>
    simp only
    rw [update_leapfrog_eq]
    split_ifs <;> exact ⟨rfl, rfl⟩
  | RUNGEKUTTA => exact ⟨rfl, rfl⟩
  | EULER =>
    simp only [update_euler]
    split_ifs <;> exact ⟨rfl, rfl⟩

theorem linked_set (h : List block) (hl : linked h) (i : Nat) (b c : block)
    (hb : h[i]? = some b) (hp : c.prev = b.prev) (hx : c.next = b.next) :
    linked (h.set i c) := by
  intro j d hd
  rw [List.length_set]
  rw [List.getElem?_set] at hd
  by_cases hij : i = j
  · subst hij
    rw [if_pos rfl, if_pos (getElem?_lt_of_some hb)] at hd
    have hcd := Option.some.inj hd
    subst hcd
    rw [hp, hx]
    exact hl i b hb
  · rw [if_neg hij] at hd
    exact hl j d hd

theorem visit_spec (p : Params) (i : Nat) (h : List block) (m : ℚ) (b : block)
    (hb : h[i]? = some b) :
    visit p i (h, m) =
      (h.set i (update_block p p.dt b (left_of h i) (right_of h i)),
       if b.x > m then b.x else m) := by
  simp only [visit, hb]

theorem visit_linked (p : Params) (i : Nat) (st : List block × ℚ) (hl : linked st.1) :
    linked (visit p i st).1 ∧ (visit p i st).1.length = st.1.length ∧
    st.2 ≤ (visit p i st).2 := by
  obtain ⟨h, m⟩ := st
  cases hb : h[i]? with
  | none =>
    have hv : visit p i (h, m) = (h, m) := by
      simp only [visit, hb]
    rw [hv]
    exact ⟨hl, rfl, le_refl _⟩
  | some b =>
    rw [visit_spec p i h m b hb]
    refine ⟨?_, List.length_set _ _ _, ?_⟩
    · exact linked_set h hl i b _ hb (update_block_ptrs p p.dt b _ _).1
        (update_block_ptrs p p.dt b _ _).2
    · show m ≤ if b.x > m then b.x else m
      split_ifs with hgt
      · exact le_of_lt hgt
      · exact le_refl _

theorem sweep_linked (p : Params) :
    ∀ (k i : Nat) (st : List block × ℚ), linked st.1 →
      linked (sweep p k i st).1 ∧ (sweep p k i st).1.length = st.1.length ∧
      st.2 ≤ (sweep p k i st).2 := by
  intro k
  induction k with
  | zero =>
    intro i st hl
    exact ⟨hl, rfl, le_refl _⟩
  | succ k ih =>
    intro i st hl
    obtain ⟨h1, h2, h3⟩ := visit_linked p i st hl
    obtain ⟨h4, h5, h6⟩ := ih (i + 1) (visit p i st) h1
    exact ⟨h4, h5.trans h2, le_trans h3 h6⟩

theorem chain_loop_linked (p : Params) :
    ∀ (k i fuel : Nat) (h : List block) (m : ℚ), linked h → i + k = h.length → k ≤ fuel →
      chain_loop p fuel (if i < h.length then some i else none) (h, m)
        = some (sweep p k i (h, m)) := by
  intro k
  induction k with
  | zero =>
    intro i fuel h m _ hik _
    rw [if_neg (by omega)]
    cases fuel <;> rfl
  | succ k ih =>
    intro i fuel h m hl hik hfuel
    obtain ⟨f, rfl⟩ : ∃ f, fuel = f + 1 := ⟨fuel - 1, by omega⟩
    have hi : i < h.length := by omega
    have hb : h[i]? = some h[i] := List.getElem?_eq_getElem hi
    have hset : (h.set i (update_block p p.dt h[i] (left_of h i) (right_of h i)))[i]? =
        some (update_block p p.dt h[i] (left_of h i) (right_of h i)) := by
      rw [List.getElem?_set, if_pos rfl, if_pos hi]
    have hnext : (update_block p p.dt h[i] (left_of h i) (right_of h i)).next =
        if i + 1 < (h.set i (update_block p p.dt h[i] (left_of h i)
          (right_of h i))).length then some (i + 1) else none := by
      rw [(update_block_ptrs p p.dt h[i] _ _).2, (hl i h[i] hb).2, List.length_set]
    rw [if_pos hi]
    simp only [chain_loop, hb, update_at_linked p p.dt h hl i h[i] hb, hset]
    rw [hnext, ih (i + 1) f _ _
      (linked_set h hl i h[i] _ hb (update_block_ptrs p p.dt h[i] _ _).1
        (update_block_ptrs p p.dt h[i] _ _).2)
      (by rw [List.length_set]; omega) (by omega)]
    simp only [sweep, visit_spec p i h m h[i] hb]

theorem chain_loop_max_le (p : Params) :
    ∀ (fuel : Nat) (q : Option Nat) (st st1 : List block × ℚ),
      chain_loop p fuel q st = some st1 → st.2 ≤ st1.2 := by
  intro fuel
  induction fuel with
  | zero =>
    intro q st st1 hrun
    cases q with
    | none =>
      simp only [chain_loop] at hrun
      rw [← Option.some.inj hrun]
    | some a =>
      simp only [chain_loop] at hrun
      exact Option.noConfusion hrun
  | succ f ih =>
    intro q st st1 hrun
    cases q with
    | none =>
      simp only [chain_loop] at hrun
      rw [← Option.some.inj hrun]
    | some a =>
      simp only [chain_loop] at hrun
      cases hb : st.1[a]? with
      | none =>
        rw [hb] at hrun
        exact Option.noConfusion hrun
      | some b =>
        rw [hb] at hrun
        simp only at hrun
        cases hu : update_at p p.dt st.1 a with
        | none =>
          rw [hu] at hrun
          exact Option.noConfusion hrun
        | some h1 =>
          rw [hu] at hrun
          simp only at hrun
          cases hc : h1[a]? with
          | none =>
            rw [hc] at hrun
            exact Option.noConfusion hrun
          | some c =>
            rw [hc] at hrun
            simp only at hrun
            have hle := ih _ _ _ hrun
            refine le_trans ?_ hle
            show st.2 ≤ if b.x > st.2 then b.x else st.2
            split_ifs with hgt
            · exact le_of_lt hgt
            · exact le_refl _

theorem substep_linked (p : Params) (s : Sim) (hok : chain_ok s) :
    ∃ s1 : Sim, substep p s = some s1 ∧ chain_ok s1 ∧ s.max_x ≤ s1.max_x ∧
      s1.heap.length = s.heap.length ∧ s1.startBlock = s.startBlock ∧
      s1.paused = s.paused := by
  obtain ⟨hl, hstart⟩ := hok
  cases hq : s.startBlock with
  | none =>
    refine ⟨{ s with heap := s.heap, max_x := s.max_x }, ?_, ⟨hl, ?_⟩, le_refl _, rfl, hq,
      rfl⟩
    · unfold substep
      rw [hq]
      cases s.heap.length <;> rfl
    · intro q hq1
      exact hstart q hq1
  | some q =>
    have hlt : q < s.heap.length := hstart q hq
    have hrun := chain_loop_linked p (s.heap.length - q) q s.heap.length s.heap s.max_x hl
      (by omega) (by omega)
    rw [if_pos hlt] at hrun
    obtain ⟨h1, h2, h3⟩ := sweep_linked p (s.heap.length - q) q (s.heap, s.max_x) hl
    refine ⟨{ s with heap := (sweep p (s.heap.length - q) q (s.heap, s.max_x)).1,
                     max_x := (sweep p (s.heap.length - q) q (s.heap, s.max_x)).2 },
      ?_, ⟨h1, ?_⟩, h3, h2, hq, rfl⟩
    · unfold substep
      rw [hq, hrun]
    · intro r hr
      have hr1 : s.startBlock = some r := hr
      rw [hq] at hr1
      have hrq : q = r := Option.some.inj hr1
      show r < (sweep p (s.heap.length - q) q (s.heap, s.max_x)).1.length
      rw [h2, ← hrq]
      exact hlt

theorem substeps_linked (p : Params) :
    ∀ (n : Nat) (s : Sim), chain_ok s →
      ∃ s1 : Sim, substeps p n s = some s1 ∧ chain_ok s1 ∧ s.max_x ≤ s1.max_x ∧
        s1.paused = s.paused := by
  intro n
  induction n with
  | zero =>
    intro s hok
    exact ⟨s, rfl, hok, le_refl _, rfl⟩
  | succ n ih =>
    intro s hok
    obtain ⟨s1, hs1, hok1, hle1, -, -, hp1⟩ := substep_linked p s hok
    obtain ⟨s2, hs2, hok2, hle2, hp2⟩ := ih s1 hok1
    refine ⟨s2, ?_, hok2, le_trans hle1 hle2, hp2.trans hp1⟩
    simp only [substeps, hs1, hs2]

theorem advance_linked (p : Params) (t : ℚ) (s : Sim) (hok : chain_ok s) :
    ∃ s1 : Sim, advance p t s = some s1 ∧ chain_ok s1 ∧ s.max_x ≤ s1.max_x := by
  unfold advance
  by_cases hp : s.paused = true
  · rw [if_pos hp]
    exact ⟨s, rfl, hok, le_refl _⟩
  · rw [if_neg hp]
    obtain ⟨s1, h1, h2, h3, -⟩ := substeps_linked p (iter_count p t).toNat s hok
    exact ⟨s1, h1, h2, h3⟩

theorem advances_linked (p : Params) :
    ∀ (ts : List ℚ) (s : Sim), chain_ok s →
      ∃ s1 : Sim, advances p ts s = some s1 ∧ chain_ok s1 ∧ s.max_x ≤ s1.max_x := by
  intro ts
  induction ts with
  | nil =>
    intro s hok
    exact ⟨s, rfl, hok, le_refl _⟩
  | cons t ts ih =>
    intro s hok
    obtain ⟨s1, h1, hok1, hle1⟩ := advance_linked p t s hok
    obtain ⟨s2, h2, hok2, hle2⟩ := ih s1 hok1
    refine ⟨s2, ?_, hok2, le_trans hle1 hle2⟩
    simp only [advances, h1, h2]

theorem substep_max_le (p : Params) (s s1 : Sim) (hrun : substep p s = some s1) :
    s.max_x ≤ s1.max_x := by
  unfold substep at hrun
  cases hc : chain_loop p s.heap.length s.startBlock (s.heap, s.max_x) with
  | none =>
    rw [hc] at hrun
    exact Option.noConfusion hrun
  | some st =>
    rw [hc] at hrun
    have hle := chain_loop_max_le p _ _ _ _ hc
    rw [← Option.some.inj hrun]
    exact hle

theorem substeps_max_le (p : Params) :
    ∀ (n : Nat) (s s1 : Sim), substeps p n s = some s1 → s.max_x ≤ s1.max_x := by
  intro n
  induction n with
  | zero =>
    intro s s1 hrun
    simp only [substeps] at hrun
    rw [← Option.some.inj hrun]
  | succ n ih =>
    intro s s1 hrun
    simp only [substeps] at hrun
    cases hs : substep p s with
    | none =>
      rw [hs] at hrun
      exact Option.noConfusion hrun
    | some s2 =>
      rw [hs] at hrun
      exact le_trans (substep_max_le p s s2 hs) (ih s2 s1 hrun)

theorem sample_sim_ok : chain_ok sample_sim := by
  constructor
  · intro i b hb
    cases i with
    | zero =>
      have hb1 : sample_block 0 0 6 15 none none = b := Option.some.inj hb
      subst hb1
      exact ⟨rfl, rfl⟩
    | succ j => exact Option.noConfusion hb
  · intro q hq
    have hq0 : 0 = q := Option.some.inj hq
    subst hq0
    exact Nat.zero_lt_one

/-- C10: for a chain that is linked in address order (every chain `compute_starting_blocks`
builds, at any later time) the advance ends and leaves `max_x` greater than or equal to its
value before, for every elapsed time, and so does every sequence of advance calls; and for
any state whatever, an advance that ends never lowers `max_x`. -/
theorem C10_max_x_nondecreasing (p : Params) (s : Sim) (hok : chain_ok s) :
    (∀ t : ℚ, ∃ s1 : Sim, advance p t s = some s1 ∧ chain_ok s1 ∧ s.max_x ≤ s1.max_x) ∧
    (∀ ts : List ℚ, ∃ s1 : Sim, advances p ts s = some s1 ∧ chain_ok s1 ∧
      s.max_x ≤ s1.max_x) ∧
    (∀ (t : ℚ) (s0 s1 : Sim), advance p t s0 = some s1 → s0.max_x ≤ s1.max_x) := by
  refine ⟨fun t => advance_linked p t s hok, fun ts => advances_linked p ts s hok, ?_⟩
  intro t s0 s1 hrun
  unfold advance at hrun
  by_cases hp : s0.paused = true
  · rw [if_pos hp] at hrun
    rw [← Option.some.inj hrun]
  · rw [if_neg hp] at hrun
    exact substeps_max_le p _ s0 s1 hrun

/-- C10 on the one-block sample chain: a frame of `3/100000` time units (three substeps)
and a sequence of two frames both end, with `max_x` not below its starting value `0`. -/
theorem C10_max_x_nondecreasing_witness :
    (∃ s1 : Sim, advance config (3 / 100000) sample_sim = some s1 ∧ 0 ≤ s1.max_x) ∧
    (∃ s1 : Sim, advances config [3 / 100000, 1 / 50000] sample_sim = some s1 ∧
      0 ≤ s1.max_x) := by
  obtain ⟨h1, h2, -⟩ := C10_max_x_nondecreasing config sample_sim sample_sim_ok
  constructor
  · obtain ⟨s1, hs1, -, hle⟩ := h1 (3 / 100000)
    exact ⟨s1, hs1, hle⟩
  · obtain ⟨s1, hs1, -, hle⟩ := h2 [3 / 100000, 1 / 50000]
    exact ⟨s1, hs1, hle⟩

/-! ## The freshly built chain at rest -/

theorem rest_layout_fresh (p : Params) (draw : Nat → Fin (random_steps + 1))
    (uninit : Nat → ℚ) (s : Sim) (hfd : 0 ≤ p.friction_d) :
    rest_layout p (compute_starting_blocks p draw uninit s).heap := by
  refine ⟨starting_heap_linked p draw uninit s, ?_⟩
  intro i b hb
  have hi := getElem?_lt_of_some hb
  rw [starting_heap_length] at hi
  rw [starting_heap_get p draw uninit s i (by omega)] at hb
  have hb1 := Option.some.inj hb
  subst hb1
  obtain ⟨-, h2, h3, h4, h5, h6, h7, h8⟩ :=
    built_block_fields p draw uninit (p.N_BLOCKS - 1) i
  refine ⟨h2, h3, h4, h5, h6, h7, ?_⟩
  rw [h8]
  exact (scale_friction_bounds p (draw i).val hfd (Nat.lt_succ_iff.mp (draw i).isLt)).1

theorem rest_layout_accel (p : Params) (h : List block) (hr : rest_layout p h)
    (hc : source_constants p) (i : Nat) (b : block) (hb : h[i]? = some b) :
    -32 / 5 ≤ leapfrog_accel p b (left_of h i) (right_of h i) ∧
    leapfrog_accel p b (left_of h i) (right_of h i) ≤ -8 / 5 := by
  obtain ⟨hkp, hkc, hfd, -, -, -⟩ := hc
  obtain ⟨hx, he, hv, -, hbkp, hbkc, -⟩ := hr.2 i b hb
  have hR : (match right_of h i with
      | some n => b.k_c * (n.x - b.x - block_width)
      | none => 0) = 0 ∨
      (match right_of h i with
      | some n => b.k_c * (n.x - b.x - block_width)
      | none => 0) = 12 / 5 := by
    cases hro : right_of h i with
    | none => exact Or.inl rfl
    | some c =>
      right
      have hcx := (hr.2 (i + 1) c hro).1
      simp only [hcx, hx, hbkc, hkc, block_width]
      push_cast
      ring
  have hL : (match left_of h i with
      | some q => q.k_c * (b.x - q.x - block_width)
      | none => 0) = 0 ∨
      (match left_of h i with
      | some q => q.k_c * (b.x - q.x - block_width)
      | none => 0) = 12 / 5 := by
    cases hlo : left_of h i with
    | none => exact Or.inl rfl
    | some c =>
      right
      unfold left_of at hlo
      by_cases h0 : i = 0
      · rw [if_pos h0] at hlo
        exact Option.noConfusion hlo
      · rw [if_neg h0] at hlo
        obtain ⟨hcx, -, -, -, -, hckc, -⟩ := hr.2 (i - 1) c hlo
        have hcast : ((i - 1 : Nat) : ℚ) = (i : ℚ) - 1 := by
          rw [Nat.cast_sub (Nat.one_le_iff_ne_zero.mpr h0)]
          simp
        simp only [hcx, hx, hckc, hkc, block_width, hcast]
        push_cast
        ring
  have hdrv : b.k_p * (b.e - b.x) - sign b.v * p.friction_d = -4 := by
    rw [hbkp, hkp, he, hx, hv, sign_zero, hfd]
    simp only [block_width]
    push_cast
    ring
  unfold leapfrog_accel
  rw [hdrv]
  rcases hR with hR | hR <;> rcases hL with hL | hL <;> rw [hR, hL] <;> norm_num

theorem rest_layout_visit (p : Params) (h : List block) (m : ℚ) (hr : rest_layout p h)
    (hc : source_constants p) (i : Nat) (b : block) (hb : h[i]? = some b) :
    visit p i (h, m) = (h.set i (stuck_block p p.dt b), if b.x > m then b.x else m) := by
  obtain ⟨hlo, hhi⟩ := rest_layout_accel p h hr hc i b hb
  obtain ⟨-, -, hv, -, -, -, hfr⟩ := hr.2 i b hb
  have hs := rest_block_sticks p p.dt b (left_of h i) (right_of h i) hv
    (by
      rw [hc.2.2.2.1, hc.2.2.2.2.1, abs_lt]
      constructor <;> linarith)
    (by
      rw [abs_lt]
      have h10 := hc.2.2.1
      constructor <;> linarith)
  rw [visit_spec p i h m b hb, update_block_stuck p p.dt b _ _ hc.2.2.2.2.2 hs]

theorem rest_layout_set (p : Params) (h : List block) (hr : rest_layout p h)
    (hve : p.v_e = 0) (i : Nat) (b : block) (hb : h[i]? = some b) :
    rest_layout p (h.set i (stuck_block p p.dt b)) := by
  refine ⟨linked_set h hr.1 i b _ hb rfl rfl, ?_⟩
  intro j d hd
  rw [List.getElem?_set] at hd
  by_cases hij : i = j
  · subst hij
    rw [if_pos rfl, if_pos (getElem?_lt_of_some hb)] at hd
    have hcd := Option.some.inj hd
    subst hcd
    obtain ⟨h1, h2, -, -, h5, h6, h7⟩ := hr.2 i b hb
    refine ⟨h1, ?_, rfl, rfl, h5, h6, h7⟩
    show b.e + p.v_e * p.dt = _
    rw [hve, zero_mul, add_zero, h2]
  · rw [if_neg hij] at hd
    exact hr.2 j d hd

theorem rest_layout_sweep (p : Params) (hc : source_constants p) (hve : p.v_e = 0) :
    ∀ (k i : Nat) (h : List block) (m : ℚ), rest_layout p h →
      (∀ (j : Nat) (b : block), h[j]? = some b → b.x ≤ m) →
      rest_layout p (sweep p k i (h, m)).1 ∧ (sweep p k i (h, m)).2 = m ∧
      (sweep p k i (h, m)).1.length = h.length := by
  intro k
  induction k with
  | zero =>
    intro i h m hr _
    exact ⟨hr, rfl, rfl⟩
  | succ k ih =>
    intro i h m hr hm
    cases hb : h[i]? with
    | none =>
      have hv : visit p i (h, m) = (h, m) := by
        simp only [visit, hb]
      simp only [sweep, hv]
      exact ih (i + 1) h m hr hm
    | some b =>
      have hle : ¬ b.x > m := not_lt.mpr (hm i b hb)
      simp only [sweep, rest_layout_visit p h m hr hc i b hb, if_neg hle]
      have hr1 := rest_layout_set p h hr hve i b hb
      obtain ⟨h1, h2, h3⟩ := ih (i + 1) (h.set i (stuck_block p p.dt b)) m hr1 (by
        intro j d hd
        rw [(hr1.2 j d hd).1]
        by_cases hj : j < h.length
        · obtain ⟨hx, -⟩ := hr.2 j h[j] (List.getElem?_eq_getElem hj)
          have := hm j h[j] (List.getElem?_eq_getElem hj)
          rw [hx] at this
          exact this
        · have := getElem?_lt_of_some hd
          rw [List.length_set] at this
          exact absurd this hj)
      exact ⟨h1, h2, h3.trans (List.length_set _ _ _)⟩

theorem substep_eq_sweep (p : Params) (s : Sim) (hl : linked s.heap)
    (hstart : s.startBlock = some 0) (hpos : 0 < s.heap.length) :
    substep p s =
      some { s with heap := (sweep p s.heap.length 0 (s.heap, s.max_x)).1,
                    max_x := (sweep p s.heap.length 0 (s.heap, s.max_x)).2 } := by
  have hrun := chain_loop_linked p s.heap.length 0 s.heap.length s.heap s.max_x hl
    (by omega) (le_refl _)
  rw [if_pos hpos] at hrun
  unfold substep
  rw [hstart, hrun]

theorem rest_sim_substep (p : Params) (hc : source_constants p) (hve : p.v_e = 0) (s : Sim)
    (hr : rest_sim p s) :
    ∃ s1 : Sim, substep p s = some s1 ∧ rest_sim p s1 ∧ s1.max_x = s.max_x ∧
      s1.heap.length = s.heap.length := by
  obtain ⟨hlay, hstart, hpos, hmax⟩ := hr
  obtain ⟨h1, h2, h3⟩ := rest_layout_sweep p hc hve s.heap.length 0 s.heap s.max_x hlay hmax
  refine ⟨_, substep_eq_sweep p s hlay.1 hstart hpos, ⟨h1, hstart, ?_, ?_⟩, h2, h3⟩
  · show 0 < (sweep p s.heap.length 0 (s.heap, s.max_x)).1.length
    rw [h3]
    exact hpos
  · intro j b hb
    have hb1 : (sweep p s.heap.length 0 (s.heap, s.max_x)).1[j]? = some b := hb
    show b.x ≤ (sweep p s.heap.length 0 (s.heap, s.max_x)).2
    rw [h2, (h1.2 j b hb1).1]
    have hj : j < s.heap.length := by
      rw [← h3]
      exact getElem?_lt_of_some hb1
    have := hmax j s.heap[j] (List.getElem?_eq_getElem hj)
    rw [(hlay.2 j s.heap[j] (List.getElem?_eq_getElem hj)).1] at this
    exact this

theorem rest_sim_substeps (p : Params) (hc : source_constants p) (hve : p.v_e = 0) :
    ∀ (k : Nat) (s : Sim), rest_sim p s →
      ∃ s1 : Sim, substeps p k s = some s1 ∧ rest_sim p s1 ∧ s1.max_x = s.max_x ∧
        s1.heap.length = s.heap.length := by
  intro k
  induction k with
  | zero =>
    intro s hr
    exact ⟨s, rfl, hr, rfl, rfl⟩
  | succ k ih =>
    intro s hr
    obtain ⟨s1, hs1, hr1, hm1, hl1⟩ := rest_sim_substep p hc hve s hr
    obtain ⟨s2, hs2, hr2, hm2, hl2⟩ := ih s1 hr1
    refine ⟨s2, ?_, hr2, hm2.trans hm1, hl2.trans hl1⟩
    simp only [substeps, hs1, hs2]

theorem rest_sim_fresh (p : Params) (draw : Nat → Fin (random_steps + 1))
    (uninit : Nat → ℚ) (s : Sim) (hfd : 0 ≤ p.friction_d) :
    rest_sim p (compute_starting_blocks p draw uninit s) := by
  refine ⟨rest_layout_fresh p draw uninit s hfd, rfl, ?_, starting_x_le_max p draw uninit s⟩
  rw [starting_heap_length]
  omega

theorem block_after_still (p : Params) (draw : Nat → Fin (random_steps + 1))
    (uninit : Nat → ℚ) (hc : source_constants p) (hve : p.v_e = 0) (k i : Nat)
    (hi : i < p.N_BLOCKS - 1 + 1) :
    ∃ b : block, block_after p draw uninit k i = some b ∧
      b.x = 3 * (block_width : ℚ) * (i : ℚ) ∧ b.e = (block_width : ℚ) * (3 * (i : ℚ) + 2) ∧
      b.v = 0 ∧ b.a = 0 := by
  have hfd : 0 ≤ p.friction_d := by
    rw [hc.2.2.1]
    norm_num
  obtain ⟨s1, hs1, hr1, -, hl1⟩ := rest_sim_substeps p hc hve k _
    (rest_sim_fresh p draw uninit initial_sim hfd)
  rw [starting_heap_length] at hl1
  have hlt : i < s1.heap.length := by
    rw [hl1]
    exact hi
  obtain ⟨h1, h2, h3, h4, -⟩ := hr1.1.2 i s1.heap[i] (List.getElem?_eq_getElem hlt)
  refine ⟨s1.heap[i], ?_, h1, h2, h3, h4⟩
  simp only [block_after, hs1]
  exact List.getElem?_eq_getElem hlt

/-- C6, refuted as stated: in the chain built with `n = 2`, `k_p = 1`, `k_c = 0.4` and
`v_e = 0`, the second block is at `x = 9` after one `LEAPFROG` substep (as it is at
construction), not at `x = 0`. -/
theorem C6_second_block_counterexample :
    ∃ b : block, block_after config_two_still sample_draw sample_uninit 1 1 = some b ∧
      b.x = 9 ∧ b.x ≠ 0 := by
  obtain ⟨b, hb, hx, -⟩ := block_after_still config_two_still sample_draw sample_uninit
    ⟨rfl, rfl, rfl, rfl, rfl, rfl⟩ rfl 1 1 (by decide)
  have h9 : b.x = 9 := by
    rw [hx]
    norm_num [block_width]
  refine ⟨b, hb, h9, ?_⟩
  rw [h9]
  norm_num

/-- C6, amended: for the chain built with `n = 2`, `k_p = 1`, `k_c = 0.4` (and the other
source constants), both blocks at rest and `v_e = 0`, after any number `k` of `LEAPFROG`
substeps both blocks remain where they were built, the first at `x = 0` and the second at
`x = 3*block_width = 9`, with `v = 0`. -/
theorem C6_two_blocks_stay (p : Params) (draw : Nat → Fin (random_steps + 1))
    (uninit : Nat → ℚ) (hc : source_constants p) (hve : p.v_e = 0) (hn : p.N_BLOCKS = 2)
    (k : Nat) :
    ∃ b0 b1 : block, block_after p draw uninit k 0 = some b0 ∧
      block_after p draw uninit k 1 = some b1 ∧
      b0.x = 0 ∧ b0.v = 0 ∧ b1.x = 9 ∧ b1.v = 0 := by
  obtain ⟨b0, hb0, hx0, -, hv0, -⟩ := block_after_still p draw uninit hc hve k 0 (by omega)
  obtain ⟨b1, hb1, hx1, -, hv1, -⟩ := block_after_still p draw uninit hc hve k 1 (by omega)
  refine ⟨b0, b1, hb0, hb1, ?_, hv0, ?_, hv1⟩
  · rw [hx0]
    norm_num
  · rw [hx1]
    norm_num [block_width]

/-- C6 (amended) with the source constants, `n = 2` and `v_e = 0`, after 1000 substeps. -/
theorem C6_two_blocks_stay_witness :
    ∃ b0 b1 : block, block_after config_two_still sample_draw sample_uninit 1000 0 = some b0 ∧
      block_after config_two_still sample_draw sample_uninit 1000 1 = some b1 ∧
      b0.x = 0 ∧ b0.v = 0 ∧ b1.x = 9 ∧ b1.v = 0 :=
  C6_two_blocks_stay config_two_still sample_draw sample_uninit
    ⟨rfl, rfl, rfl, rfl, rfl, rfl⟩ rfl rfl 1000

/-! ## The single-block chain -/

theorem energy_loop_linked (term : block → ℚ) (h : List block) (hl : linked h) :
    ∀ (k i fuel : Nat) (r : ℚ), i + k = h.length → k ≤ fuel →
      energy_loop term h fuel (if i < h.length then some i else none) r
        = some (r + ((h.drop i).map term).sum) := by
  intro k
  induction k with
  | zero =>
    intro i fuel r hik _
    rw [if_neg (by omega), List.drop_of_length_le (by omega)]
    cases fuel <;> simp [energy_loop]
  | succ k ih =>
    intro i fuel r hik hfuel
    obtain ⟨f, rfl⟩ : ∃ f, fuel = f + 1 := ⟨fuel - 1, by omega⟩
    have hi : i < h.length := by omega
    have hb : h[i]? = some h[i] := List.getElem?_eq_getElem hi
    rw [if_pos hi]
    simp only [energy_loop, hb]
    rw [(hl i h[i] hb).2, ih (i + 1) f _ (by omega) (by omega),
      List.drop_eq_getElem_cons hi, List.map_cons, List.sum_cons, add_assoc]

theorem energy_loop_chain (term : block → ℚ) (s : Sim) (hl : linked s.heap)
    (hchain : (s.startBlock = none ∧ s.heap = []) ∨
      (s.startBlock = some 0 ∧ 0 < s.heap.length)) :
    energy_loop term s.heap s.heap.length s.startBlock 0 = some ((s.heap.map term).sum) := by
  rcases hchain with ⟨hnone, hempty⟩ | ⟨hstart, hpos⟩
  · rw [hnone, hempty]
    rfl
  · have h := energy_loop_linked term s.heap hl s.heap.length 0 s.heap.length 0 (by omega)
      (le_refl _)
    rw [if_pos hpos, List.drop_zero, zero_add] at h
    rw [hstart]
    exact h

theorem kinetic_term_eq (b : block) : kinetic_term b = (b.v + b.v_prev) / 4 := by
  unfold kinetic_term
  rw [if_pos (by decide)]
  ring

theorem potential_term_eq (b : block) : potential_term b = b.k_p * (b.e - b.x) ^ 2 / 2 := by
  unfold potential_term
  ring

theorem sample_energy_spec (p : Params) (s : Sim) (hl : linked s.heap)
    (hchain : (s.startBlock = none ∧ s.heap = []) ∨
      (s.startBlock = some 0 ∧ 0 < s.heap.length)) :
    sample_energy p s =
      some { s with
        kineticHist :=
          if p.plot = Plot.KINETIC ∨ p.plot = Plot.ALL then
            (s.heap.map kinetic_term).sum :: s.kineticHist
          else s.kineticHist,
        potentialHist :=
          if p.plot = Plot.POTENTIAL ∨ p.plot = Plot.ALL then
            (s.heap.map potential_term).sum :: s.potentialHist
          else s.potentialHist } := by
  unfold sample_energy
  rw [energy_loop_chain kinetic_term s hl hchain,
    energy_loop_chain potential_term s hl hchain]
  by_cases hk : p.plot = Plot.KINETIC ∨ p.plot = Plot.ALL <;>
    by_cases hq : p.plot = Plot.POTENTIAL ∨ p.plot = Plot.ALL <;>
    simp only [if_pos, if_neg, hk, hq, not_false_eq_true]

theorem sample_energy_kinetic (p : Params) (s : Sim)
    (hplot : p.plot = Plot.KINETIC ∨ p.plot = Plot.ALL) (hl : linked s.heap)
    (hchain : (s.startBlock = none ∧ s.heap = []) ∨
      (s.startBlock = some 0 ∧ 0 < s.heap.length)) :
    ∃ s1 : Sim, sample_energy p s = some s1 ∧
      s1.kineticHist = (s.heap.map (fun b => (b.v + b.v_prev) / 4)).sum :: s.kineticHist ∧
      s1.heap = s.heap := by
  have hterm : (fun b => (b.v + b.v_prev) / 4) = kinetic_term := by
    funext b
    exact (kinetic_term_eq b).symm
  refine ⟨_, sample_energy_spec p s hl hchain, ?_, rfl⟩
  show (if p.plot = Plot.KINETIC ∨ p.plot = Plot.ALL then
    (s.heap.map kinetic_term).sum :: s.kineticHist else s.kineticHist) = _
  rw [if_pos hplot, hterm]

theorem sample_sim_moving_linked : linked sample_sim_moving.heap := by
  intro i b hb
  cases i with
  | zero =>
    have hb1 : sample_block 0 (-2) 6 15 none none = b := Option.some.inj hb
    subst hb1
    exact ⟨rfl, rfl⟩
  | succ j => exact Option.noConfusion hb

/-- C12: with the `LEAPFROG` scheme (the formula is the same whatever scheme is configured)
and a tracked kinetic series, for the chain of the program or an absent chain, the energy
accumulator puts exactly one new sample in front of the kinetic history, and that sample is
the sum over all blocks of `(v + v_prev)/4`. -/
theorem C12_kinetic_sample_leapfrog (p : Params) (s : Sim)
    (hplot : p.plot = Plot.KINETIC ∨ p.plot = Plot.ALL) (hl : linked s.heap)
    (hchain : (s.startBlock = none ∧ s.heap = []) ∨
      (s.startBlock = some 0 ∧ 0 < s.heap.length)) :
    ∃ s1 : Sim, sample_energy p s = some s1 ∧
      s1.kineticHist = (s.heap.map (fun b => (b.v + b.v_prev) / 4)).sum :: s.kineticHist ∧
      s1.kineticHist.length = s.kineticHist.length + 1 ∧
      s1.heap = s.heap := by
  obtain ⟨s1, h1, h2, h3⟩ := sample_energy_kinetic p s hplot hl hchain
  refine ⟨s1, h1, h2, ?_, h3⟩
  rw [h2]
  rfl

/-- C12 on the one-block sample chain with `v = -2`, `v_prev = 0` and the source constants
(`LEAPFROG`): the new newest kinetic sample is `(-2 + 0)/4 = -1/2`. -/
theorem C12_kinetic_sample_leapfrog_witness :
    ∃ s1 : Sim, sample_energy config sample_sim_moving = some s1 ∧
      s1.kineticHist = [-1 / 2, 0] := by
  obtain ⟨s1, h1, h2, -⟩ := C12_kinetic_sample_leapfrog config sample_sim_moving
    (Or.inr rfl) sample_sim_moving_linked (Or.inr ⟨rfl, Nat.zero_lt_one⟩)
  refine ⟨s1, h1, ?_⟩
  rw [h2]
  norm_num [sample_sim_moving, sample_block]

/-- C13, the code at a failing input: with `EULER` configured and one block moving with
`v = -2` (`v_prev = 0`), the kinetic sample put in front of the history is
`(v + v_prev)/4 = -1/2`, negative, where the sum of `v*v/2` is `2`: the source tests
`if (LEAPFROG)`, which holds for every configured scheme, so the `v*v/2` branch never runs. -/
theorem C13_kinetic_sample_euler_failing_input :
    config_euler.integrate = I_Method.EULER ∧
    (∃ s1 : Sim, sample_energy config_euler sample_sim_moving = some s1 ∧
      s1.kineticHist = [-1 / 2, 0]) ∧
    (sample_sim_moving.heap.map (fun b => b.v * b.v / 2)).sum = 2 := by
  refine ⟨rfl, ?_, ?_⟩
  · obtain ⟨s1, h1, h2, -⟩ := sample_energy_kinetic config_euler sample_sim_moving
      (Or.inr rfl) sample_sim_moving_linked (Or.inr ⟨rfl, Nat.zero_lt_one⟩)
    refine ⟨s1, h1, ?_⟩
    rw [h2]
    norm_num [sample_sim_moving, sample_block]
  · norm_num [sample_sim_moving, sample_block]

theorem potential_sum_nonneg (h : List block) (hk : ∀ b ∈ h, 0 ≤ b.k_p) :
    0 ≤ (h.map (fun b => b.k_p * (b.e - b.x) ^ 2 / 2)).sum := by
  apply List.sum_nonneg
  intro t ht
  obtain ⟨b, hb, rfl⟩ := List.mem_map.mp ht
  have h1 := hk b hb
  have h2 : 0 ≤ (b.e - b.x) ^ 2 := sq_nonneg _
  positivity

/-- C14: for the chain of the program or an absent chain, the potential sample the energy
accumulator puts in front of the potential history is the sum over all blocks of
`k_p*(e - x)^2/2`, and it is non-negative whenever every block has `k_p >= 0`. -/
theorem C14_potential_sample (p : Params) (s : Sim)
    (hplot : p.plot = Plot.POTENTIAL ∨ p.plot = Plot.ALL) (hl : linked s.heap)
    (hchain : (s.startBlock = none ∧ s.heap = []) ∨
      (s.startBlock = some 0 ∧ 0 < s.heap.length)) :
    ∃ s1 : Sim, sample_energy p s = some s1 ∧
      s1.potentialHist =
        (s.heap.map (fun b => b.k_p * (b.e - b.x) ^ 2 / 2)).sum :: s.potentialHist ∧
      ((∀ b ∈ s.heap, 0 ≤ b.k_p) →
        0 ≤ (s.heap.map (fun b => b.k_p * (b.e - b.x) ^ 2 / 2)).sum) := by
  have hterm : (fun b => b.k_p * (b.e - b.x) ^ 2 / 2) = potential_term := by
    funext b
    exact (potential_term_eq b).symm
  refine ⟨_, sample_energy_spec p s hl hchain, ?_, potential_sum_nonneg s.heap⟩
  show (if p.plot = Plot.POTENTIAL ∨ p.plot = Plot.ALL then
    (s.heap.map potential_term).sum :: s.potentialHist else s.potentialHist) = _
  rw [if_pos hplot, hterm]

/-- C14 on the one-block sample chain (`k_p = 1`, `e - x = 6`): the new newest potential
sample is `1*6^2/2 = 18`. -/
theorem C14_potential_sample_witness :
    ∃ s1 : Sim, sample_energy config sample_sim = some s1 ∧
      s1.potentialHist = [18, 0] := by
  obtain ⟨s1, h1, h2, -⟩ := C14_potential_sample config sample_sim (Or.inr rfl)
    sample_sim_ok.1 (Or.inr ⟨rfl, Nat.zero_lt_one⟩)
  refine ⟨s1, h1, ?_⟩
  rw [h2]
  norm_num [sample_sim, sample_block]

/-! ## History trimming (`draw_graph`) -/

theorem trim_walk_eq_take : ∀ (l : List ℚ) (W : Int), trim_walk W l = l.take W.toNat := by
  intro l
  induction l with
  | nil =>
    intro W
    simp [trim_walk]
  | cons b rest ih =>
    intro W
    by_cases hW : W > 0
    · have hN : W.toNat = (W - 1).toNat + 1 := by omega
      simp only [trim_walk, if_pos hW]
      rw [ih (W - 1), hN, List.take_succ_cons]
    · have hN : W.toNat = 0 := by omega
      simp only [trim_walk, if_neg hW]
      rw [hN, List.take_zero]

theorem draw_graph_eq_take (W : Int) (max_rec r : ℚ) (old : List ℚ) :
    draw_graph W max_rec (r :: old) =
      some (if r > max_rec then r else max_rec, (r :: old).take (W.toNat + 1)) := by
  simp only [draw_graph, trim_walk_eq_take, List.take_succ_cons]

/-- C15: the trim of a read is idempotent: for every non-empty history `r :: old`, every
width `W` and every `max_rec`, `draw_graph` returns a history (and a `max_rec`) that a second
`draw_graph` with the same width leaves unchanged. -/
theorem C15_trim_idempotent (W : Int) (max_rec r : ℚ) (old : List ℚ) :
    ∃ (m1 : ℚ) (h1 : List ℚ), draw_graph W max_rec (r :: old) = some (m1, h1) ∧
      draw_graph W m1 h1 = some (m1, h1) := by
  refine ⟨_, _, draw_graph_eq_take W max_rec r old, ?_⟩
  rw [List.take_succ_cons, draw_graph_eq_take, List.take_succ_cons, List.take_take, min_self]
  have hm : ¬ r > (if r > max_rec then r else max_rec) := by
    split_ifs with hgt
    · exact lt_irrefl r
    · exact hgt
  rw [if_neg hm]

/-- C16, refuted as stated: a read with width `W = 1` of the history `[1, 2, 3]` leaves the
two samples `[1, 2]`, not the single most recent sample `[1]`. -/
theorem C16_trim_width_counterexample :
    draw_graph 1 100 [1, 2, 3] = some (100, [1, 2]) ∧
    ([1, 2] : List ℚ) ≠ ([1, 2, 3] : List ℚ).take (min 1 3) := by
  constructor
  · norm_num [draw_graph, trim_walk]
  · simp

/-- C16, amended: after a read with width `W` a non-empty history retains the `W + 1` most
recent samples: it is exactly the first `min(W + 1, length)` entries of the previous
newest-first sequence, in the same order and with the same values, and everything older is
discarded. -/
theorem C16_trim_keeps_width_plus_one (W : Nat) (max_rec r : ℚ) (old : List ℚ) :
    ∃ (m1 : ℚ) (h1 : List ℚ), draw_graph (W : Int) max_rec (r :: old) = some (m1, h1) ∧
      h1 = (r :: old).take (min (W + 1) (r :: old).length) ∧
      h1.length = min (W + 1) (r :: old).length := by
  refine ⟨_, _, draw_graph_eq_take (W : Int) max_rec r old, ?_, ?_⟩
  · rw [Int.toNat_ofNat]
    by_cases hle : W + 1 ≤ (r :: old).length
    · rw [min_eq_left hle]
    · rw [min_eq_right (le_of_lt (not_le.mp hle)), List.take_length,
        List.take_of_length_le (le_of_lt (not_le.mp hle))]
  · rw [Int.toNat_ofNat, List.length_take]

/-! ## Block selection -/

theorem outside_iff (meter mouse_x : ℚ) (hm : 0 < meter) (a : block) :
    (mouse_x < a.x * meter ∨ mouse_x > a.x * meter + (block_width : ℚ) * meter) ↔
      ¬ body_contains a (mouse_x / meter) := by
  unfold body_contains
  rw [le_div_iff₀ hm, div_le_iff₀ hm, not_and_or, not_le, not_le]
  constructor
  · rintro (h | h)
    · exact Or.inl h
    · right
      linarith
  · rintro (h | h)
    · exact Or.inl h
    · right
      show a.x * meter + (block_width : ℚ) * meter < mouse_x
      linarith

theorem select_walk_linked (meter mouse_x : ℚ) (hm : 0 < meter) (h : List block)
    (hl : linked h) :
    ∀ (k i fuel : Nat), i + k = h.length → k ≤ fuel →
      ∃ r : Option Nat,
        select_walk meter mouse_x h fuel (if i < h.length then some i else none) = some r ∧
        (r = none → ∀ (j : Nat) (b : block), i ≤ j → h[j]? = some b →
          ¬ body_contains b (mouse_x / meter)) ∧
        (∀ q : Nat, r = some q → i ≤ q ∧ ∃ b : block, h[q]? = some b ∧
          body_contains b (mouse_x / meter) ∧
          ∀ (j : Nat) (c : block), i ≤ j → j < q → h[j]? = some c →
            ¬ body_contains c (mouse_x / meter)) := by
  intro k
  induction k with
  | zero =>
    intro i fuel hik _
    rw [if_neg (by omega)]
    refine ⟨none, by cases fuel <;> rfl, ?_, ?_⟩
    · intro _ j b hij hb
      have := getElem?_lt_of_some hb
      omega
    · intro q hq
      exact Option.noConfusion hq
  | succ k ih =>
    intro i fuel hik hfuel
    obtain ⟨f, rfl⟩ : ∃ f, fuel = f + 1 := ⟨fuel - 1, by omega⟩
    have hi : i < h.length := by omega
    have hb : h[i]? = some h[i] := List.getElem?_eq_getElem hi
    rw [if_pos hi]
    simp only [select_walk, hb]
    by_cases hout : mouse_x < h[i].x * meter ∨
        mouse_x > h[i].x * meter + (block_width : ℚ) * meter
    · rw [if_pos hout, (hl i h[i] hb).2]
      obtain ⟨r, hr, hnone, hsome⟩ := ih (i + 1) f (by omega) (by omega)
      refine ⟨r, hr, ?_, ?_⟩
      · intro hrn j b hij hjb
        by_cases hji : j = i
        · subst hji
          rw [← Option.some.inj (hb.symm.trans hjb)]
          exact (outside_iff meter mouse_x hm _).mp hout
        · exact hnone hrn j b (by omega) hjb
      · intro q hq
        obtain ⟨hiq, b, hqb, hcont, hfirst⟩ := hsome q hq
        refine ⟨by omega, b, hqb, hcont, ?_⟩
        intro j c hij hjq hjc
        by_cases hji : j = i
        · subst hji
          rw [← Option.some.inj (hb.symm.trans hjc)]
          exact (outside_iff meter mouse_x hm _).mp hout
        · exact hfirst j c (by omega) hjq hjc
    · rw [if_neg hout]
      refine ⟨some i, rfl, ?_, ?_⟩
      · intro hrn
        exact Option.noConfusion hrn
      · intro q hq
        have hiq : i = q := Option.some.inj hq
        subst hiq
        refine ⟨le_refl _, h[i], hb, ?_, ?_⟩
        · by_contra hcon
          exact hout ((outside_iff meter mouse_x hm _).mpr hcon)
        · intro j c hij hjq _
          omega

/-- C17: for a click on the block row, with a positive scale `meter`, on the chain of the
program or on an absent chain, the selection ends with `selected` pointing to a block if and
only if the body interval `[x, x + block_width]` of some block contains the clicked
coordinate `mouse_x / meter`; the selected block is then the first block of the chain whose
interval contains it, and otherwise `selected` is `nullptr`. -/
theorem C17_select_block (meter mouse_x mouse_y : ℚ) (SCREEN_HEIGHT : Int) (s : Sim)
    (hm : 0 < meter)
    (hrow : mouse_y ≤ ((SCREEN_HEIGHT : ℚ) + (block_width : ℚ) * meter) / 2 ∧
      mouse_y ≥ ((SCREEN_HEIGHT : ℚ) - (block_width : ℚ) * meter) / 2)
    (hl : linked s.heap)
    (hchain : (s.startBlock = none ∧ s.heap = []) ∨
      (s.startBlock = some 0 ∧ 0 < s.heap.length)) :
    ∃ s1 : Sim, select_block meter mouse_x mouse_y SCREEN_HEIGHT s = some s1 ∧
      s1.heap = s.heap ∧
      ((∃ q : Nat, s1.selected = some q) ↔
        ∃ (i : Nat) (b : block), s.heap[i]? = some b ∧ body_contains b (mouse_x / meter)) ∧
      (∀ q : Nat, s1.selected = some q →
        ∃ b : block, s.heap[q]? = some b ∧ body_contains b (mouse_x / meter) ∧
          ∀ (j : Nat) (c : block), j < q → s.heap[j]? = some c →
            ¬ body_contains c (mouse_x / meter)) ∧
      ((∀ (i : Nat) (b : block), s.heap[i]? = some b →
          ¬ body_contains b (mouse_x / meter)) → s1.selected = none) := by
  have hwalk : ∃ r : Option Nat,
      select_walk meter mouse_x s.heap s.heap.length s.startBlock = some r ∧
      (r = none → ∀ (j : Nat) (b : block), s.heap[j]? = some b →
        ¬ body_contains b (mouse_x / meter)) ∧
      (∀ q : Nat, r = some q → ∃ b : block, s.heap[q]? = some b ∧
        body_contains b (mouse_x / meter) ∧
        ∀ (j : Nat) (c : block), j < q → s.heap[j]? = some c →
          ¬ body_contains c (mouse_x / meter)) := by
    rcases hchain with ⟨hnone, hempty⟩ | ⟨hsome, hpos⟩
    · rw [hnone, hempty]
      refine ⟨none, rfl, ?_, ?_⟩
      · intro _ j b hb
        exact Option.noConfusion hb
      · intro q hq
        exact Option.noConfusion hq
    · obtain ⟨r, hr, h1, h2⟩ := select_walk_linked meter mouse_x hm s.heap hl
        s.heap.length 0 s.heap.length (by omega) (le_refl _)
      rw [if_pos hpos] at hr
      rw [hsome]
      refine ⟨r, hr, ?_, ?_⟩
      · intro hrn j b hb
        exact h1 hrn j b (Nat.zero_le j) hb
      · intro q hq
        obtain ⟨-, b, hb, hcont, hfirst⟩ := h2 q hq
        exact ⟨b, hb, hcont, fun j c hjq hc => hfirst j c (Nat.zero_le j) hjq hc⟩
  obtain ⟨r, hr, h1, h2⟩ := hwalk
  refine ⟨{ s with selected := r }, ?_, rfl, ?_, h2, ?_⟩
  · unfold select_block
    simp only [hrow, and_self, if_true, hr]
  · constructor
    · rintro ⟨q, hq⟩
      obtain ⟨b, hb, hcont, -⟩ := h2 q hq
      exact ⟨q, b, hb, hcont⟩
    · rintro ⟨i, b, hb, hcont⟩
      cases hrr : r with
      | none => exact absurd hcont (h1 hrr i b hb)
      | some q => exact ⟨q, rfl⟩
  · intro hall
    cases hrr : r with
    | none => rfl
    | some q =>
      obtain ⟨b, hb, hcont, -⟩ := h2 q hrr
      exact absurd hcont (hall q b hb)

/-- C17 on the one-block sample chain with `meter = 10` and a screen height of `450`: a
click at abscissa `15` on the block row (coordinate `1.5`, inside `[0, 3]`) selects the
block at address `0`. -/
theorem C17_select_block_witness :
    ∃ s1 : Sim, select_block 10 15 225 450 sample_sim = some s1 ∧ s1.selected = some 0 := by
  obtain ⟨s1, h1, -, h3, h4, -⟩ := C17_select_block 10 15 225 450 sample_sim
    (by norm_num) (by norm_num [block_width]) sample_sim_ok.1
    (Or.inr ⟨rfl, Nat.zero_lt_one⟩)
  obtain ⟨q, hq⟩ := h3.mpr ⟨0, sample_block 0 0 6 15 none none, rfl, by
    norm_num [body_contains, sample_block, block_width]⟩
  obtain ⟨b, hb, -⟩ := h4 q hq
  have hq0 : q = 0 := by
    have hlt : q < sample_sim.heap.length := getElem?_lt_of_some hb
    have hlen : sample_sim.heap.length = 1 := rfl
    omega
  rw [hq0] at hq
  exact ⟨s1, h1, hq⟩

/-! ## The Runge-Kutta integrator -/

theorem update_rungekutta_v (p : Params) (dt : ℚ) (b : block) (prv nxt : Option block)
    (hR : p.integrate = I_Method.RUNGEKUTTA) :
    (update_block p dt b prv nxt).v = rk4_velocity_code p dt b prv nxt ∧
    (update_block p dt b prv nxt).x = b.x + rk4_velocity_code p dt b prv nxt * dt ∧
    (update_block p dt b prv nxt).e = b.e + p.v_e * dt := by
  refine ⟨?_, ?_, ?_⟩ <;>
    simp only [update_block, hR, update_rungekutta, compute_vel, rk4_velocity_code]

/-- C18, the code at a failing input: with `RUNGEKUTTA` configured and the source `dt`, a
lone block with `x = 0`, `v = 0.0009`, `e = 30` and static friction `15` has its first three
evaluations in the at-rest branch (`|v| <= v_epsilon`), and `v3 = v + k3*dt` lies above
`v_epsilon`.  The source evaluates `k_4` at the velocity and position of the `k_3` state,
again in the at-rest branch (about `15`), and `update_block` stores a velocity below
`0.0010501`; the claim evaluates `k_4` at the full-step state, in the moving branch (about
`20`), and its velocity is above `0.0010583`: the two differ by more than `8e-6`. -/
theorem C18_rungekutta_failing_input :
    (update_block config_rungekutta config_rungekutta.dt
        (sample_block 0 (9 / 10000) 30 15 none none) none none).v < 10501 / 10000000 ∧
    10583 / 10000000 < rk4_velocity_spec config_rungekutta config_rungekutta.dt
        (sample_block 0 (9 / 10000) 30 15 none none) none none ∧
    (update_block config_rungekutta config_rungekutta.dt
        (sample_block 0 (9 / 10000) 30 15 none none) none none).v + 8 / 1000000 <
      rk4_velocity_spec config_rungekutta config_rungekutta.dt
        (sample_block 0 (9 / 10000) 30 15 none none) none none := by
  have h1 : (update_block config_rungekutta config_rungekutta.dt
      (sample_block 0 (9 / 10000) 30 15 none none) none none).v
      = 67200003197399999960039 / 64000000000000000000000000 := by
    rw [(update_rungekutta_v config_rungekutta _ _ none none rfl).1]
    norm_num [rk4_velocity_code, compute_accel, mod, max, sign, sample_block,
      config_rungekutta, config]
  have h2 : rk4_velocity_spec config_rungekutta config_rungekutta.dt
      (sample_block 0 (9 / 10000) 30 15 none none) none none
      = 2032000095903999997602340000039961 / 1920000000000000000000000000000000000 := by
    norm_num [rk4_velocity_spec, compute_accel, mod, max, sign, sample_block,
      config_rungekutta, config]
  rw [h1, h2]
  norm_num

/-! ## Action and reaction of the neighbour springs -/

theorem stored_accel_eq (p : Params) (dt : ℚ) (b : block) (prv nxt : Option block) :
    stored_accel p dt b prv nxt = leapfrog_accel p b prv nxt := by
  unfold stored_accel
  rw [update_leapfrog_eq, if_neg]
  · rfl
  · intro h
    exact absurd h.2 (not_lt.mpr (abs_nonneg _))

theorem from_next_eq (p : Params) (dt : ℚ) (b n : block) :
    from_next p dt b n = b.k_c * (n.x - b.x - block_width) := by
  unfold from_next
  rw [stored_accel_eq, stored_accel_eq]
  simp only [leapfrog_accel]
  ring

theorem from_prev_eq (p : Params) (dt : ℚ) (c q : block) :
    from_prev p dt c q = -(q.k_c * (c.x - q.x - block_width)) := by
  unfold from_prev
  rw [stored_accel_eq, stored_accel_eq]
  simp only [leapfrog_accel]
  ring

theorem spring_in_eq_pull (p : Params) (dt : ℚ) (h : List block) (i : Nat)
    (hi : i < h.length) :
    spring_in p dt h i = link_pull h (i + 1) - link_pull h i := by
  have hb : h[i]? = some h[i] := List.getElem?_eq_getElem hi
  have hleft : left_of h (i + 1) = some h[i] := by
    unfold left_of
    rw [if_neg (Nat.succ_ne_zero i), Nat.add_sub_cancel]
    exact hb
  unfold spring_in link_pull
  rw [hleft]
  simp only [hb, right_of, stored_accel_eq]
  cases hr : h[i + 1]? <;> cases hq : left_of h i <;> simp only [leapfrog_accel] <;> ring

theorem link_pull_ends (h : List block) :
    link_pull h 0 = 0 ∧ link_pull h h.length = 0 := by
  constructor
  · unfold link_pull left_of
    rw [if_pos rfl]
    cases h[0]? <;> rfl
  · unfold link_pull
    rw [List.getElem?_eq_none (le_refl _)]

/-- C19: the acceleration the `LEAPFROG` branch of `update_block` stores (unless the stick
test resets it to `0`) is the driver and friction part plus the terms the block receives
from its two neighbours; for every adjacent pair `b`, `c = b.next` on the same snapshot the
term `b` receives from `c` is `b.k_c*(c.x - b.x - block_width)` and the term `c` receives
from `b` is its exact negative; and on every snapshot of a chain the neighbour-spring
contributions to the stored accelerations of all blocks sum to zero. -/
theorem C19_action_reaction (p : Params) (dt : ℚ) :
    (∀ (b : block) (prv nxt : Option block), p.integrate = I_Method.LEAPFROG →
      (update_block p dt b prv nxt).a =
        if ((b.v + dt * stored_accel p dt b prv nxt) * b.v < 0 ∨
              |b.v + dt * stored_accel p dt b prv nxt| < p.v_epsilon) ∧
            |stored_accel p dt b prv nxt| < b.friction then 0
        else stored_accel p dt b prv nxt) ∧
    (∀ (b : block) (prv nxt : Option block),
      stored_accel p dt b prv nxt =
        b.k_p * (b.e - b.x) - sign b.v * p.friction_d
          + (match nxt with
             | some n => from_next p dt b n
             | none => 0)
          + (match prv with
             | some q => from_prev p dt b q
             | none => 0)) ∧
    (∀ b c : block, from_next p dt b c = b.k_c * (c.x - b.x - block_width) ∧
      from_prev p dt c b = -from_next p dt b c) ∧
    (∀ h : List block,
      (linked h → ∀ (i : Nat) (b : block), h[i]? = some b →
        load h b.next = some (right_of h i) ∧ load h b.prev = some (left_of h i)) ∧
      (∀ (i : Nat) (b : block), h[i]? = some b →
        spring_in p dt h i =
          (match right_of h i with
           | some n => from_next p dt b n
           | none => 0)
          + (match left_of h i with
             | some q => from_prev p dt b q
             | none => 0)) ∧
      Finset.sum (Finset.range h.length) (fun i => spring_in p dt h i) = 0) := by
  refine ⟨?_, ?_, ?_, ?_⟩
  · intro b prv nxt hL
    rw [update_block_leapfrog p dt b prv nxt hL, update_leapfrog_eq, stored_accel_eq]
    by_cases hs : leapfrog_sticks p b (leapfrog_accel p b prv nxt)
        (b.v + dt * leapfrog_accel p b prv nxt)
    · have hs1 : ((b.v + dt * leapfrog_accel p b prv nxt) * b.v < 0 ∨
            |b.v + dt * leapfrog_accel p b prv nxt| < p.v_epsilon) ∧
          |leapfrog_accel p b prv nxt| < b.friction := hs
      rw [if_pos hs, if_pos hs1]
    · have hs1 : ¬ (((b.v + dt * leapfrog_accel p b prv nxt) * b.v < 0 ∨
            |b.v + dt * leapfrog_accel p b prv nxt| < p.v_epsilon) ∧
          |leapfrog_accel p b prv nxt| < b.friction) := hs
      rw [if_neg hs, if_neg hs1]
  · intro b prv nxt
    rw [stored_accel_eq]
    cases prv <;> cases nxt <;> simp only [leapfrog_accel, from_next_eq, from_prev_eq] <;> ring
  · intro b c
    rw [from_next_eq, from_prev_eq]
    exact ⟨rfl, rfl⟩
  · intro h
    refine ⟨?_, ?_, ?_⟩
    · intro hl i b hb
      exact ⟨load_next_linked h hl i b hb, load_prev_linked h hl i b hb⟩
    · intro i b hb
      unfold spring_in
      simp only [hb, stored_accel_eq]
      cases right_of h i <;> cases left_of h i <;>
        simp only [leapfrog_accel, from_next_eq, from_prev_eq] <;> ring
    · have hsum : Finset.sum (Finset.range h.length) (fun i => spring_in p dt h i) =
          Finset.sum (Finset.range h.length)
            (fun i => link_pull h (i + 1) - link_pull h i) := by
        apply Finset.sum_congr rfl
        intro i hi
        exact spring_in_eq_pull p dt h i (Finset.mem_range.mp hi)
      rw [hsum, Finset.sum_range_sub, (link_pull_ends h).1, (link_pull_ends h).2, sub_zero]

/-! ## The freshly built chain is a fixed point without anchor drift -/

/-- C20: with the source constants (`k_p = 1`, `k_c = 0.4`, `friction_d = 10`,
`block_width = 3`, `dt = 1e-5`, `v_epsilon = 1e-3`) and `v_e = 0`, the chain
`compute_starting_blocks` builds, for every block count and every draw, rests in the layout
of construction; and every chain in that layout, whatever static frictions `>= friction_d`
its blocks have, is a fixed point of the `LEAPFROG` substep: after any number of substeps
every block has its constructed `x` and `e`, `v = 0` and `a = 0`, and `max_x` is unchanged. -/
theorem C20_fresh_chain_fixed_point (p : Params) (hc : source_constants p)
    (hve : p.v_e = 0) :
    (∀ (draw : Nat → Fin (random_steps + 1)) (uninit : Nat → ℚ) (s0 : Sim),
      rest_sim p (compute_starting_blocks p draw uninit s0)) ∧
    (∀ (s : Sim) (k : Nat), rest_sim p s →
      ∃ s1 : Sim, substeps p k s = some s1 ∧ s1.max_x = s.max_x ∧
        s1.heap.length = s.heap.length ∧
        ∀ (i : Nat) (b : block), s.heap[i]? = some b →
          ∃ b1 : block, s1.heap[i]? = some b1 ∧ b1.x = b.x ∧ b1.e = b.e ∧
            b1.x = 3 * (block_width : ℚ) * (i : ℚ) ∧
            b1.e = (block_width : ℚ) * (3 * (i : ℚ) + 2) ∧
            b1.v = 0 ∧ b1.a = 0 ∧ b1.friction ≥ p.friction_d) := by
  constructor
  · intro draw uninit s0
    exact rest_sim_fresh p draw uninit s0 (by rw [hc.2.2.1]; norm_num)
  · intro s k hr
    obtain ⟨s1, hs1, hr1, hm1, hl1⟩ := rest_sim_substeps p hc hve k s hr
    refine ⟨s1, hs1, hm1, hl1, ?_⟩
    intro i b hb
    have hi : i < s1.heap.length := by
      rw [hl1]
      exact getElem?_lt_of_some hb
    obtain ⟨h1, h2, h3, h4, -, -, h7⟩ := hr1.1.2 i s1.heap[i] (List.getElem?_eq_getElem hi)
    obtain ⟨g1, g2, -⟩ := hr.1.2 i b hb
    exact ⟨s1.heap[i], List.getElem?_eq_getElem hi, by rw [h1, g1], by rw [h2, g2], h1, h2,
      h3, h4, h7⟩

/-- C20 with the source constants, two blocks and `v_e = 0`: after 1000 substeps the fresh
chain has its `max_x = 9` and its second block at `x = 9`, `e = 15`, `v = a = 0`. -/
theorem C20_fresh_chain_fixed_point_witness :
    ∃ s1 : Sim,
      substeps config_two_still 1000
        (compute_starting_blocks config_two_still sample_draw sample_uninit initial_sim)
        = some s1 ∧
      s1.max_x = 9 ∧
      ∃ b1 : block, s1.heap[1]? = some b1 ∧ b1.x = 9 ∧ b1.e = 15 ∧ b1.v = 0 ∧ b1.a = 0 := by
  obtain ⟨hfresh, hfix⟩ := C20_fresh_chain_fixed_point config_two_still
    ⟨rfl, rfl, rfl, rfl, rfl, rfl⟩ rfl
  obtain ⟨s1, hs1, hm1, -, hall⟩ := hfix _ 1000 (hfresh sample_draw sample_uninit initial_sim)
  obtain ⟨b1, hb1, -, -, hx, he, hv, ha, -⟩ := hall 1 _
    (starting_heap_get config_two_still sample_draw sample_uninit initial_sim 1 (by decide))
  refine ⟨s1, hs1, ?_, b1, hb1, ?_, ?_, hv, ha⟩
  · rw [hm1, starting_max_x, (built_block_fields _ _ _ _ _).2.1]
    norm_num [block_width, config_two_still]
  · rw [hx]
    norm_num [block_width]
  · rw [he]
    norm_num [block_width]

end EarthquakeSim
